import Mathlib

/-!
Verification of the transaction-builder core of ckb-sdk-rust
(`src/tx_builder/mod.rs`): the fee oracle `tx_fee`, the capacity balancer
`balance_tx_capacity`, the script-group builder `gen_script_groups` and the
placeholder-witness filler `fill_placeholder_witnesses`, shallowly embedded
over explicit dependency providers.

External collaborators (transaction dependency provider, header resolver,
cell-dep resolver, the DAO maximum-withdraw formula, the molecule serializer
and occupied-capacity computation) are modelled as components of an
environment record `Env`; the cell collector, whose implementation lives
outside the embedded file, is modelled from the spec as a finite list of live
cells from which reserving queries remove the cells they return.
-/

/-- 2^64; u64 arithmetic that wraps in the source wraps modulo this. -/
def U64MOD : Nat := 2 ^ 64

/-- Script hash type (`data` | `type` | `data1`). -/
inductive ScriptHashType
  | dataHash
  | typeHash
  | data1Hash
deriving DecidableEq

/-- `ckb_types::packed::Script`: code hash (32 bytes), hash type, args. -/
structure Script where
  codeHash : List Nat
  hashType : ScriptHashType
  args : List Nat
deriving DecidableEq

/-- `ScriptId`: (code_hash, hash_type); the key for cell-dep and unlocker lookup. -/
structure ScriptId where
  codeHash : List Nat
  hashType : ScriptHashType
deriving DecidableEq

/-- `ScriptId::from(&Script)`: drop the args. -/
def Script.scriptId (s : Script) : ScriptId := ⟨s.codeHash, s.hashType⟩

/-- `ckb_types::packed::OutPoint`. -/
structure OutPoint where
  txHash : List Nat
  index : Nat
deriving DecidableEq

/-- `ckb_types::packed::CellInput`: previous out-point plus the `since` field. -/
structure CellInput where
  previousOutput : OutPoint
  since : Nat
deriving DecidableEq

/-- `ckb_types::packed::CellOutput`: capacity (shannons), lock script, optional type script. -/
structure CellOutput where
  capacity : Nat
  lock : Script
  typeScript : Option Script
deriving DecidableEq

/-- `ckb_types::packed::CellDep`; only compared for equality by the embedded code. -/
structure CellDep where
  outPoint : OutPoint
  depType : Nat
deriving DecidableEq

/-- A block header; the embedded code passes headers opaquely to the DAO formula. -/
structure Header where
  number : Nat
  dao : List Nat
deriving DecidableEq

/-- The data of a `TransactionView` that the embedded code reads and rebuilds. -/
structure Tx where
  cellDeps : List CellDep
  headerDeps : List (List Nat)
  inputs : List CellInput
  outputs : List CellOutput
  outputsData : List (List Nat)
  witnesses : List (List Nat)
deriving DecidableEq

/-- Outcome of a header lookup: resolver error, resolved-to-absent, or a header. -/
inductive Resolved (α : Type)
  | fail
  | missing
  | found (a : α)
deriving DecidableEq

/-- The external collaborators of the transaction builder, as pure functions.
`getCell`/`getCellData` model `TransactionDependencyProvider` (`none` = error),
`resolveByTx`/`resolveByNumber` model `HeaderDepResolver`,
`resolveCellDep` models `CellDepResolver`,
`daoMaxWithdraw` models `calculate_dao_maximum_withdraw4`,
`occupiedCapacity cell dataLen` models `CellOutput::occupied_capacity`,
`serializedSizeInBlock` models `tx.data().as_reader().serialized_size_in_block()`,
`outputSliceLen` models `CellOutput::as_slice().len()`,
`calcScriptHash` models `calc_lock_hash` / `calc_script_hash`, and
`daoTypeHash` / `multisigTypeHash` model the two 32-byte chain constants. -/
structure Env where
  getCell : OutPoint → Option CellOutput
  getCellData : OutPoint → Option (List Nat)
  resolveByTx : List Nat → Resolved Header
  resolveByNumber : Nat → Resolved Header
  resolveCellDep : ScriptId → Option CellDep
  daoMaxWithdraw : Header → Header → CellOutput → Nat → Nat
  occupiedCapacity : CellOutput → Nat → Nat
  serializedSizeInBlock : Tx → Nat
  outputSliceLen : CellOutput → Nat
  calcScriptHash : Script → List Nat
  daoTypeHash : List Nat
  multisigTypeHash : List Nat

/-- Little-endian interpretation of a byte list (`u64::from_le_bytes`). -/
def le64 (bs : List Nat) : Nat := bs.foldr (fun b acc => b + 256 * acc) 0

/-- `FeeRate::fee(size)`. Modelled from the spec: `fee(size) = size * rate / 1000`
with truncating division (`FeeRate` lives outside the embedded file). -/
def feeCalc (rate size : Nat) : Nat := rate * size / 1000

/-- Which header lookup failed inside `tx_fee` (the source formats a message
naming the lookup; `fromResolver` stands for an error of the resolver itself). -/
inductive HeaderDepMsg
  | byTx (txHash : List Nat)
  | byNumber (n : Nat)
  | fromResolver
deriving DecidableEq

/-- `TransactionFeeError`, restricted to the variants the embedded code can produce. -/
inductive TransactionFeeError
  | txDep
  | headerDep (m : HeaderDepMsg)
  | capacityError
  | capacityOverflow (delta : Nat)
deriving DecidableEq

/-- Result of a fee computation: a value, an error, or a Rust panic
(the `assert_eq!(data.len(), 8)` in `tx_fee`). -/
inductive FeeComp
  | ok (v : Nat)
  | fail (e : TransactionFeeError)
  | panic
deriving DecidableEq

/-- The per-input value computed by the loop body of `tx_fee`
(src/tx_builder/mod.rs lines 171-227): the previous cell's plain capacity,
or, for an input with non-zero `since` whose cell's type script's code hash
equals the DAO type hash, the DAO maximum withdraw derived from the prepare
header (by previous tx hash) and the deposit header (by the little-endian
u64 in the 8-byte cell data). -/
def inputValue (env : Env) (inp : CellInput) : FeeComp :=
  match env.getCell inp.previousOutput with
  | none => .fail .txDep
  | some cell =>
    if inp.since != 0 &&
        (match cell.typeScript with
         | some ts => ts.codeHash == env.daoTypeHash
         | none => false) then
      match env.resolveByTx inp.previousOutput.txHash with
      | .fail => .fail (.headerDep .fromResolver)
      | .missing => .fail (.headerDep (.byTx inp.previousOutput.txHash))
      | .found prepareHeader =>
        match env.getCellData inp.previousOutput with
        | none => .fail .txDep
        | some data =>
          if data.length == 8 then
            match env.resolveByNumber (le64 data) with
            | .fail => .fail (.headerDep .fromResolver)
            | .missing => .fail (.headerDep (.byNumber (le64 data)))
            | .found depositHeader =>
              .ok (env.daoMaxWithdraw depositHeader prepareHeader cell
                    (env.occupiedCapacity cell data.length))
          else .panic
    else .ok cell.capacity

/-- The `input_total` accumulation of `tx_fee`: `input_total += capacity` on a
u64, i.e. wrapping modulo 2^64. -/
def inputTotalGo (env : Env) : Nat → List CellInput → FeeComp
  | acc, [] => .ok acc
  | acc, inp :: rest =>
    match inputValue env inp with
    | .ok v => inputTotalGo env ((acc + v) % U64MOD) rest
    | .fail e => .fail e
    | .panic => .panic

/-- `tx.outputs_capacity()`: checked u64 sum of output capacities
(`none` = `CapacityError` on overflow). -/
def outputsCapacityGo : Nat → List CellOutput → Option Nat
  | acc, [] => some acc
  | acc, o :: rest =>
    if acc + o.capacity < U64MOD then outputsCapacityGo (acc + o.capacity) rest
    else none

/-- `tx_fee` (src/tx_builder/mod.rs lines 165-233): sum input values, sum
output capacities with overflow check, and return the checked difference,
failing with `CapacityOverflow(output_total - input_total)` when the outputs
exceed the inputs. -/
def tx_fee (env : Env) (tx : Tx) : FeeComp :=
  match inputTotalGo env 0 tx.inputs with
  | .ok inputTotal =>
    match outputsCapacityGo 0 tx.outputs with
    | none => .fail .capacityError
    | some outputTotal =>
      if outputTotal ≤ inputTotal then .ok (inputTotal - outputTotal)
      else .fail (.capacityOverflow (outputTotal - inputTotal))
  | .fail e => .fail e
  | .panic => .panic

/-- `CellQueryOptions`, restricted to the fields the balancer sets: the lock
script and the minimum total capacity (0 disables the minimum). -/
structure CellQueryOptions where
  lock : Script
  minTotalCapacity : Nat
deriving DecidableEq

/-- `CellQueryOptions::new_lock` plus `data_len_range = exact 0`
(src/tx_builder/mod.rs lines 331-335). -/
def baseQueryOf (lock : Script) : CellQueryOptions :=
  { lock := lock, minTotalCapacity := 0 }

/-- A live cell held by the collector. -/
structure LiveCell where
  outPoint : OutPoint
  output : CellOutput
  dataLen : Nat
deriving DecidableEq

/-- Modelled from the spec: whether a live cell matches the balancer's query
(exact lock script, data length 0, no type script; the `CellCollector`
implementation is outside the embedded file). -/
def cellMatches (q : CellQueryOptions) (c : LiveCell) : Bool :=
  c.output.lock == q.lock && c.dataLen == 0 && c.output.typeScript == none

/-- Modelled from the spec: accumulate matching cells until the minimum total
capacity is reached (a collector returns cells until the requested minimum
aggregate capacity is covered, or all it has). -/
def takeUntilCap (target : Nat) : Nat → List LiveCell → List LiveCell
  | _, [] => []
  | acc, c :: rest =>
    if target ≤ acc then []
    else c :: takeUntilCap target (acc + c.output.capacity) rest

/-- Modelled from the spec: `CellCollector::collect_live_cells(query, apply_changes)`.
Returns the chosen cells and the new collector state; a reserving call
(`apply_changes = true`) removes the returned cells so that no later reserving
call within the same build can return them again. -/
def collect_live_cells (q : CellQueryOptions) (applyChanges : Bool)
    (st : List LiveCell) : List LiveCell × List LiveCell :=
  let ms := st.filter (cellMatches q)
  let chosen := if q.minTotalCapacity == 0 then ms else takeUntilCap q.minTotalCapacity 0 ms
  (chosen, if applyChanges && !chosen.isEmpty
           then st.filter (fun c => decide (c ∉ chosen))
           else st)

/-- `CapacityProvider`: lock scripts with their placeholder witnesses. -/
structure CapacityProvider where
  lockScripts : List (Script × List Nat)
deriving DecidableEq

/-- `CapacityBalancer`. -/
structure CapacityBalancer where
  feeRate : Nat
  capacityProvider : CapacityProvider
  changeLockScript : Option Script
  forceSmallChangeAsFee : Option Nat
deriving DecidableEq

/-- `BalanceTxCapacityError`, restricted to the variants the embedded code can
produce. The `CapacityNotEnough` message embeds its capacity in plain decimal
(the source's `HumanCapacity` display formatter lives outside the embedded
file). -/
inductive BalanceTxCapacityError
  | txFee (e : TransactionFeeError)
  | txDep
  | capacityNotEnough (msg : String)
  | forceSmallChangeAsFeeFailed (fee : Nat)
  | emptyCapacityProvider
  | resolveCellDepFailed (id : ScriptId)
deriving DecidableEq

/-- Result of a balancing run: a balanced transaction, a named error, a Rust
panic, or fuel exhaustion of the embedded loop. -/
inductive BalanceRes
  | ok (tx : Tx)
  | fail (e : BalanceTxCapacityError)
  | panic
  | outOfFuel
deriving DecidableEq

/-- The mutable state of the balancing loop
(src/tx_builder/mod.rs lines 324-328), plus the collector state. -/
structure LState where
  idx : Nat
  cellDeps : List CellDep
  inputs : List CellInput
  changeOutput : Option CellOutput
  witnesses : List (List Nat)
  collector : List LiveCell
deriving DecidableEq

/-- One iteration's outcome: return from the function, or continue the loop. -/
inductive StepRes
  | ret (r : BalanceRes)
  | cont (s : LState)
deriving DecidableEq

/-- The witness padding loop (src/tx_builder/mod.rs lines 344-348): push empty
witnesses until seed witnesses + new witnesses cover seed inputs + new inputs. -/
def padWitnesses (seed : Tx) (wits : List (List Nat)) (insLen : Nat) : List (List Nat) :=
  wits ++ List.replicate ((seed.inputs.length + insLen) - (seed.witnesses.length + wits.length)) []

/-- The candidate transaction (src/tx_builder/mod.rs lines 349-360): the seed's
data with cell-deps, inputs and witnesses appended, and the change output (with
empty data) appended when present. -/
def buildCandidate (seed : Tx) (cds : List CellDep) (ins : List CellInput)
    (wits : List (List Nat)) (chg : Option CellOutput) : Tx :=
  { cellDeps := seed.cellDeps ++ cds
    headerDeps := seed.headerDeps
    inputs := seed.inputs ++ ins
    outputs := seed.outputs ++ (match chg with | some o => [o] | none => [])
    outputsData := seed.outputsData ++ (match chg with | some _ => [[]] | none => [])
    witnesses := seed.witnesses ++ wits }

/-- The candidate built at state `S`. -/
def candidateOf (seed : Tx) (S : LState) : Tx :=
  buildCandidate seed S.cellDeps S.inputs
    (padWitnesses seed S.witnesses S.inputs.length) S.changeOutput

/-- The minimum fee of the candidate built at state `S`:
`fee_rate.fee(serialized_size_in_block(candidate))`. -/
def minFeeOf (env : Env) (bal : CapacityBalancer) (seed : Tx) (S : LState) : Nat :=
  feeCalc bal.feeRate (env.serializedSizeInBlock (candidateOf seed S))

/-- The `has_provider` check (src/tx_builder/mod.rs lines 336-343): whether any
input (seed or already collected) is locked by the given lock script; `none`
models a `get_cell` failure aborting the build. -/
def hasProviderOf (env : Env) (lockScript : Script) : List CellInput → Option Bool
  | [] => some false
  | inp :: rest =>
    match env.getCell inp.previousOutput with
    | none => none
    | some cell =>
      match hasProviderOf env lockScript rest with
      | none => none
      | some b => some (cell.lock == lockScript || b)

/-- The `since` attached to balancer-added inputs
(src/tx_builder/mod.rs lines 482-491): for a multisig lock with 28-byte args,
the little-endian u64 at args[20..28); otherwise 0. -/
def sinceFromLock (multisigHash : List Nat) (lock : Script) : Nat :=
  if lock.codeHash == multisigHash && lock.args.length == 28 then le64 (lock.args.drop 20)
  else 0

/-- The `extra_min_fee` of a fresh change output
(src/tx_builder/mod.rs lines 384-392): the fee of the serialized base change
output plus the three 4-byte headers the serializer adds per new output. -/
def extraFeeOf (env : Env) (bal : CapacityBalancer) (baseChangeOutput : CellOutput) : Nat :=
  feeCalc bal.feeRate (env.outputSliceLen baseChangeOutput + 12)

/-- Outcome of the decision table (the `match fee_result` of
src/tx_builder/mod.rs lines 366-447): an early return, an advance of the
provider index (the `continue` at line 424), or fall-through to the
"need more capacity" code with the (possibly updated) change output. -/
inductive StepDecision
  | ret (r : BalanceRes)
  | advance
  | go (chg : Option CellOutput) (needMore : Nat)
deriving DecidableEq

/-- The decision table of one balancing iteration
(src/tx_builder/mod.rs lines 362-447). `need_more_capacity` starts at 1; the
fixed point returns the candidate; a surplus grows or creates the change
output; an undersized surplus peeks for more cells and falls back to the
force-small-change policy, provider advance, or failure; a deficit converts
`CapacityOverflow` into a capacity demand. -/
def decision (env : Env) (bal : CapacityBalancer) (lockScriptsLen : Nat)
    (baseChangeOutput : CellOutput) (baseOcc : Nat) (lockScript : Script)
    (S : LState) (cand : Tx) (minFee : Nat) : StepDecision :=
  match tx_fee env cand with
  | .panic => .ret .panic
  | .fail (.capacityOverflow delta) => .go S.changeOutput (delta + minFee)
  | .fail e => .ret (.fail (.txFee e))
  | .ok fee =>
    if fee == minFee then .ret (.ok cand)
    else if minFee < fee then
      match S.changeOutput with
      | some output =>
        if output.capacity + (fee - minFee) < U64MOD then
          .go (some { output with capacity := output.capacity + (fee - minFee) }) 0
        else .ret .panic
      | none =>
        if baseOcc + extraFeeOf env bal baseChangeOutput ≤ fee - minFee then
          .go (some { baseChangeOutput with
                      capacity := (fee - minFee) - extraFeeOf env bal baseChangeOutput }) 0
        else
          if ((collect_live_cells (baseQueryOf lockScript) false S.collector).1).isEmpty then
            match bal.forceSmallChangeAsFee with
            | some capLimit =>
              if capLimit < fee then .ret (.fail (.forceSmallChangeAsFeeFailed fee))
              else .ret (.ok cand)
            | none =>
              if S.idx + 1 == lockScriptsLen then
                .ret (.fail (.capacityNotEnough
                  ("can not create change cell, left capacity=" ++ toString (fee - minFee))))
              else .advance
          else .go (some { baseChangeOutput with capacity := baseOcc }) 1
    else .go S.changeOutput 1

/-- The "need more capacity" tail of an iteration
(src/tx_builder/mod.rs lines 448-497): reserve more live cells; on empty
result advance the provider index or fail; otherwise resolve the provider
cell-dep the first time the accumulated cell-dep list is empty, push the
placeholder witness if the provider had no input yet, and append the cells
as inputs carrying the lock's `since`. -/
def stepCollect (env : Env) (lockScriptsLen : Nat) (seed : Tx) (lockScript : Script)
    (placeholderWitness : List Nat) (hasProvider : Bool) (wits : List (List Nat))
    (chg : Option CellOutput) (needMore : Nat) (S : LState) : StepRes :=
  let q : CellQueryOptions := { lock := lockScript, minTotalCapacity := needMore }
  let res := collect_live_cells q true S.collector
  if res.1.isEmpty then
    if S.idx + 1 == lockScriptsLen then
      .ret (.fail (.capacityNotEnough ("need more capacity, value=" ++ toString needMore)))
    else
      .cont { S with idx := S.idx + 1, witnesses := wits, changeOutput := chg,
                     collector := res.2 }
  else
    match
      (if S.cellDeps.isEmpty then
        match env.resolveCellDep lockScript.scriptId with
        | none => none
        | some dep =>
          some (if seed.cellDeps.all (fun cd => cd != dep) then [dep] else [])
      else some S.cellDeps) with
    | none => .ret (.fail (.resolveCellDepFailed lockScript.scriptId))
    | some cds =>
      let wits' := if !hasProvider then wits ++ [placeholderWitness] else wits
      let since := sinceFromLock env.multisigTypeHash lockScript
      .cont { idx := S.idx, cellDeps := cds,
              inputs := S.inputs ++ res.1.map (fun c => CellInput.mk c.outPoint since),
              changeOutput := chg, witnesses := wits', collector := res.2 }

/-- One full iteration of the balancing loop
(src/tx_builder/mod.rs lines 329-498). -/
def step (env : Env) (bal : CapacityBalancer) (lockScripts : List (Script × List Nat))
    (seed : Tx) (baseChangeOutput : CellOutput) (baseOcc : Nat) (S : LState) : StepRes :=
  match lockScripts.get? S.idx with
  | none => .ret .panic
  | some (lockScript, placeholderWitness) =>
    match hasProviderOf env lockScript (seed.inputs ++ S.inputs) with
    | none => .ret (.fail .txDep)
    | some hasProvider =>
      let wits := padWitnesses seed S.witnesses S.inputs.length
      let cand := buildCandidate seed S.cellDeps S.inputs wits S.changeOutput
      let minFee := feeCalc bal.feeRate (env.serializedSizeInBlock cand)
      match decision env bal lockScripts.length baseChangeOutput baseOcc lockScript S cand minFee with
      | .ret r => .ret r
      | .advance => .cont { S with idx := S.idx + 1, witnesses := wits }
      | .go chg needMore =>
        if 0 < needMore then
          stepCollect env lockScripts.length seed lockScript placeholderWitness
            hasProvider wits chg needMore S
        else .cont { S with changeOutput := chg, witnesses := wits }

/-- The `loop` of `balance_tx_capacity`, with explicit fuel. -/
def balanceLoop (env : Env) (bal : CapacityBalancer) (lockScripts : List (Script × List Nat))
    (seed : Tx) (baseChangeOutput : CellOutput) (baseOcc : Nat) :
    Nat → LState → BalanceRes
  | 0, _ => .outOfFuel
  | fuel + 1, S =>
    match step env bal lockScripts seed baseChangeOutput baseOcc S with
    | .ret r => r
    | .cont S' => balanceLoop env bal lockScripts seed baseChangeOutput baseOcc fuel S'

/-- Deduplication of the provider lock scripts, preserving first occurrences
(src/tx_builder/mod.rs lines 317-323); only the script is compared. -/
def dedupLockScripts (xs : List (Script × List Nat)) : List (Script × List Nat) :=
  xs.foldl (fun acc x => if acc.all (fun y => y.1 != x.1) then acc ++ [x] else acc) []

/-- `balance_tx_capacity` (src/tx_builder/mod.rs lines 295-499): fail on an
empty provider, compute the base change output and its occupied capacity,
deduplicate the provider locks, and run the loop from the empty state. -/
def balance_tx_capacity (env : Env) (bal : CapacityBalancer) (seed : Tx)
    (collector0 : List LiveCell) (fuel : Nat) : BalanceRes :=
  match bal.capacityProvider.lockScripts with
  | [] => .fail .emptyCapacityProvider
  | (firstLock, _) :: _ =>
    let changeLockScript := bal.changeLockScript.getD firstLock
    let baseChangeOutput : CellOutput :=
      { capacity := 0, lock := changeLockScript, typeScript := none }
    let baseOcc := env.occupiedCapacity baseChangeOutput 0
    balanceLoop env bal (dedupLockScripts bal.capacityProvider.lockScripts) seed
      baseChangeOutput baseOcc fuel
      { idx := 0, cellDeps := [], inputs := [], changeOutput := none,
        witnesses := [], collector := collector0 }

/-- Lock group or type group. -/
inductive ScriptGroupType
  | lock
  | typeGroup
deriving DecidableEq

/-- `ckb_script::ScriptGroup`: a script, its kind, and the input/output
positions it governs. -/
structure ScriptGroup where
  script : Script
  groupType : ScriptGroupType
  inputIndices : List Nat
  outputIndices : List Nat
deriving DecidableEq

/-- `ScriptGroup::from_lock_script`. -/
def ScriptGroup.fromLockScript (s : Script) : ScriptGroup := ⟨s, .lock, [], []⟩

/-- `ScriptGroup::from_type_script`. -/
def ScriptGroup.fromTypeScript (s : Script) : ScriptGroup := ⟨s, .typeGroup, [], []⟩

/-- The group maps of `gen_script_groups`, with the hash-keyed `HashMap`s
modelled as association lists in insertion order. -/
structure ScriptGroups where
  lockGroups : List (List Nat × ScriptGroup)
  typeGroups : List (List Nat × ScriptGroup)
deriving DecidableEq

/-- `groups.entry(key).or_insert_with(|| mk).input_indices.push(i)`. -/
def addInputIndex (key : List Nat) (mk : ScriptGroup) (i : Nat) :
    List (List Nat × ScriptGroup) → List (List Nat × ScriptGroup)
  | [] => [(key, { mk with inputIndices := [i] })]
  | (k, g) :: rest =>
    if k == key then (k, { g with inputIndices := g.inputIndices ++ [i] }) :: rest
    else (k, g) :: addInputIndex key mk i rest

/-- `groups.entry(key).or_insert_with(|| mk).output_indices.push(i)`. -/
def addOutputIndex (key : List Nat) (mk : ScriptGroup) (i : Nat) :
    List (List Nat × ScriptGroup) → List (List Nat × ScriptGroup)
  | [] => [(key, { mk with outputIndices := [i] })]
  | (k, g) :: rest =>
    if k == key then (k, { g with outputIndices := g.outputIndices ++ [i] }) :: rest
    else (k, g) :: addOutputIndex key mk i rest

/-- The input pass of `gen_script_groups` (src/tx_builder/mod.rs lines
514-526): for input `i`, insert `i` into the lock group keyed by the previous
cell's lock hash and, when the cell has a type script, into the type group
keyed by that script's hash. `none` models a `get_cell` failure. -/
def genGroupsInputs (env : Env) : Nat → List (List Nat × ScriptGroup) →
    List (List Nat × ScriptGroup) → List CellInput →
    Option (List (List Nat × ScriptGroup) × List (List Nat × ScriptGroup))
  | _, lockG, typeG, [] => some (lockG, typeG)
  | i, lockG, typeG, inp :: rest =>
    match env.getCell inp.previousOutput with
    | none => none
    | some output =>
      let lockG' := addInputIndex (env.calcScriptHash output.lock)
        (ScriptGroup.fromLockScript output.lock) i lockG
      let typeG' :=
        match output.typeScript with
        | some t => addInputIndex (env.calcScriptHash t) (ScriptGroup.fromTypeScript t) i typeG
        | none => typeG
      genGroupsInputs env (i + 1) lockG' typeG' rest

/-- The output pass of `gen_script_groups` (src/tx_builder/mod.rs lines
527-534): for output `i` with a type script, insert `i` into that type group's
output indices. -/
def genGroupsOutputs (env : Env) : Nat → List (List Nat × ScriptGroup) →
    List CellOutput → List (List Nat × ScriptGroup)
  | _, typeG, [] => typeG
  | i, typeG, o :: rest =>
    let typeG' :=
      match o.typeScript with
      | some t => addOutputIndex (env.calcScriptHash t) (ScriptGroup.fromTypeScript t) i typeG
      | none => typeG
    genGroupsOutputs env (i + 1) typeG' rest

/-- `gen_script_groups` (src/tx_builder/mod.rs lines 506-539). -/
def gen_script_groups (env : Env) (tx : Tx) : Option ScriptGroups :=
  match genGroupsInputs env 0 [] [] tx.inputs with
  | none => none
  | some (lockG, typeG) => some ⟨lockG, genGroupsOutputs env 0 typeG tx.outputs⟩

/-- A `ScriptUnlocker`, restricted to the operations
`fill_placeholder_witnesses` uses; `none` results model `UnlockError`s. -/
structure ScriptUnlockerM where
  matchArgs : List Nat → Bool
  isUnlocked : Tx → ScriptGroup → Option Bool
  fillPlaceholderWitness : Tx → ScriptGroup → Option Tx

/-- `unlockers.get(&script_id)` with the `HashMap` modelled as an association list. -/
def lookupUnlocker (us : List (ScriptId × ScriptUnlockerM)) (id : ScriptId) :
    Option ScriptUnlockerM :=
  match us.find? (fun p => p.1 == id) with
  | some p => some p.2
  | none => none

/-- The loop of `fill_placeholder_witnesses` (src/tx_builder/mod.rs lines
554-568) over the remaining lock groups, threading the transaction and
accumulating the not-matched groups. -/
def fillGo (us : List (ScriptId × ScriptUnlockerM)) :
    Tx → List ScriptGroup → List ScriptGroup → Option (Tx × List ScriptGroup)
  | tx, acc, [] => some (tx, acc)
  | tx, acc, g :: rest =>
    match lookupUnlocker us g.script.scriptId with
    | some u =>
      match u.isUnlocked tx g with
      | none => none
      | some true => fillGo us tx acc rest
      | some false =>
        if u.matchArgs g.script.args then
          match u.fillPlaceholderWitness tx g with
          | none => none
          | some tx' => fillGo us tx' acc rest
        else fillGo us tx (acc ++ [g]) rest
    | none => fillGo us tx (acc ++ [g]) rest

/-- `fill_placeholder_witnesses` (src/tx_builder/mod.rs lines 546-570). -/
def fill_placeholder_witnesses (env : Env) (us : List (ScriptId × ScriptUnlockerM))
    (tx : Tx) : Option (Tx × List ScriptGroup) :=
  match gen_script_groups env tx with
  | none => none
  | some gs => fillGo us tx [] (gs.lockGroups.map (fun p => p.2))

/-- The number of groups of `G` whose input indices contain `i`. -/
def groupCount (i : Nat) (G : List (List Nat × ScriptGroup)) : Nat :=
  G.countP (fun p => decide (i ∈ p.2.inputIndices))

/-- Termination measure of the balancing loop: lexicographic (providers left,
collector size) collapsed into one natural number. -/
def balPhi (len : Nat) (S : LState) : Nat :=
  (len - S.idx) * (S.collector.length + 1) + S.collector.length

/-- Two loop states with the same provider index and collector state. -/
def samePhi (S S' : LState) : Prop :=
  S'.idx = S.idx ∧ S'.collector = S.collector

/-- The loop measure strictly drops: either the provider index advanced with
the collector untouched, or the collector strictly shrank at the same index. -/
def phiDec (S S' : LState) : Prop :=
  (S'.idx = S.idx + 1 ∧ S'.collector = S.collector) ∨
  (S'.idx = S.idx ∧ S'.collector.length < S.collector.length)

/-- A fuel budget sufficient for `balance_tx_capacity` to finish. -/
def balanceFuel (bal : CapacityBalancer) (col : List LiveCell) : Nat :=
  3 * ((dedupLockScripts bal.capacityProvider.lockScripts).length * (col.length + 1)
       + col.length + 1) + 3

/-! Concrete instances used to exercise the embedding. -/

/-- Code hash of provider lock A. -/
def hashA : List Nat := List.replicate 32 1

/-- Code hash of provider lock B. -/
def hashB : List Nat := List.replicate 32 5

/-- The DAO type hash constant of the concrete environments. -/
def hashDao : List Nat := List.replicate 32 3

/-- The multisig type hash constant of the concrete environments. -/
def hashMultisig : List Nat := List.replicate 32 4

/-- Provider lock A. -/
def lockA : Script := ⟨hashA, .dataHash, []⟩

/-- Provider lock B. -/
def lockB : Script := ⟨hashB, .dataHash, []⟩

/-- Recipient lock of the seed output. -/
def lockOut : Script := ⟨List.replicate 32 2, .dataHash, []⟩

/-- Cell-dep registered for lock A. -/
def depA : CellDep := ⟨⟨List.replicate 32 10, 0⟩, 0⟩

/-- Cell-dep registered for lock B. -/
def depB : CellDep := ⟨⟨List.replicate 32 11, 0⟩, 0⟩

/-- Seed transaction: one 100-shannon recipient output, nothing else. -/
def seed1 : Tx := ⟨[], [], [], [⟨100, lockOut, none⟩], [[]], []⟩

/-- Out-point of the 150-shannon live cell of lock A. -/
def opA1 : OutPoint := ⟨List.replicate 32 9, 0⟩

/-- The 150-shannon cell of lock A. -/
def cellOutA1 : CellOutput := ⟨150, lockA, none⟩

/-- The 150-shannon live cell of lock A. -/
def liveA1 : LiveCell := ⟨opA1, cellOutA1, 0⟩

/-- Environment of the converging scenario: one provider cell of 150,
fee rate 0, occupied capacity 10 for every shape. -/
def env1 : Env :=
  { getCell := fun op => if op == opA1 then some cellOutA1 else none
    getCellData := fun _ => none
    resolveByTx := fun _ => .fail
    resolveByNumber := fun _ => .fail
    resolveCellDep := fun id => if id == lockA.scriptId then some depA else none
    daoMaxWithdraw := fun _ _ _ _ => 0
    occupiedCapacity := fun _ _ => 10
    serializedSizeInBlock := fun _ => 0
    outputSliceLen := fun _ => 0
    calcScriptHash := fun s => s.codeHash
    daoTypeHash := hashDao
    multisigTypeHash := hashMultisig }

/-- Balancer of the converging scenario: fee rate 0, provider A, no force policy. -/
def bal1 : CapacityBalancer := ⟨0, ⟨[(lockA, [7, 7])]⟩, none, none⟩

/-- The balanced transaction the converging scenario produces. -/
def tx1val : Tx :=
  ⟨[depA], [], [⟨opA1, 0⟩], [⟨100, lockOut, none⟩, ⟨50, lockA, none⟩], [[], []], [[7, 7]]⟩

/-- The loop state of the converging scenario after its first iteration:
the 150-shannon cell collected, no change output yet. -/
def state1 : LState := ⟨0, [depA], [⟨opA1, 0⟩], none, [[7, 7]], []⟩

/-- The loop state after the second iteration of the converging scenario:
only the change output was created. -/
def state2 : LState := ⟨0, [depA], [⟨opA1, 0⟩], some ⟨50, lockA, none⟩, [[7, 7]], []⟩

/-- The initial loop state of the converging scenario. -/
def state0 : LState := ⟨0, [], [], none, [], [liveA1]⟩

/-- Out-point of the 105-shannon live cell of the force-small-change scenario. -/
def opA2 : OutPoint := ⟨List.replicate 32 12, 0⟩

/-- The 105-shannon cell of lock A. -/
def cellOutA2 : CellOutput := ⟨105, lockA, none⟩

/-- The 105-shannon live cell of lock A. -/
def liveA2 : LiveCell := ⟨opA2, cellOutA2, 0⟩

/-- Environment of the force-small-change scenario: one provider cell of 105. -/
def env2 : Env :=
  { env1 with getCell := fun op => if op == opA2 then some cellOutA2 else none }

/-- Balancer of the force-small-change scenario: cap 1000. -/
def bal2 : CapacityBalancer := ⟨0, ⟨[(lockA, [7, 7])]⟩, none, some 1000⟩

/-- The transaction returned through the force-small-change path: no change
output, surplus 5 donated as fee. -/
def tx2val : Tx := ⟨[depA], [], [⟨opA2, 0⟩], [⟨100, lockOut, none⟩], [[]], [[7, 7]]⟩

/-- The loop state of the force-small-change scenario after its first iteration. -/
def state2f : LState := ⟨0, [depA], [⟨opA2, 0⟩], none, [[7, 7]], []⟩

/-- Out-point of provider A's 10-shannon cell in the two-provider scenario. -/
def opA3 : OutPoint := ⟨List.replicate 32 13, 0⟩

/-- Out-point of provider B's 200-shannon cell in the two-provider scenario. -/
def opB3 : OutPoint := ⟨List.replicate 32 14, 0⟩

/-- Provider A's 10-shannon cell. -/
def cellOutA3 : CellOutput := ⟨10, lockA, none⟩

/-- Provider B's 200-shannon cell. -/
def cellOutB3 : CellOutput := ⟨200, lockB, none⟩

/-- Provider A's live cell in the two-provider scenario. -/
def liveA3 : LiveCell := ⟨opA3, cellOutA3, 0⟩

/-- Provider B's live cell in the two-provider scenario. -/
def liveB3 : LiveCell := ⟨opB3, cellOutB3, 0⟩

/-- Environment of the two-provider scenario: cell-deps registered for both
provider locks. -/
def env3 : Env :=
  { env1 with
    getCell := fun op =>
      if op == opA3 then some cellOutA3
      else if op == opB3 then some cellOutB3 else none
    resolveCellDep := fun id =>
      if id == lockA.scriptId then some depA
      else if id == lockB.scriptId then some depB else none }

/-- Balancer of the two-provider scenario: providers A then B. -/
def bal3 : CapacityBalancer := ⟨0, ⟨[(lockA, [1]), (lockB, [2])]⟩, none, none⟩

/-- The transaction the two-provider scenario produces: inputs from both
providers, but only provider A's cell-dep. -/
def tx3val : Tx :=
  ⟨[depA], [], [⟨opA3, 0⟩, ⟨opB3, 0⟩],
   [⟨100, lockOut, none⟩, ⟨110, lockA, none⟩], [[], []], [[1], [2]]⟩

/-- Multisig provider lock: multisig code hash, 28-byte args whose tail
[20..28) holds little-endian 5. -/
def lockM : Script :=
  ⟨hashMultisig, .dataHash, List.replicate 20 0 ++ [5, 0, 0, 0, 0, 0, 0, 0]⟩

/-- Out-point of the multisig provider's live cell. -/
def opM : OutPoint := ⟨List.replicate 32 15, 0⟩

/-- The multisig provider's 150-shannon cell. -/
def cellOutM : CellOutput := ⟨150, lockM, none⟩

/-- The multisig provider's live cell. -/
def liveM : LiveCell := ⟨opM, cellOutM, 0⟩

/-- Environment of the multisig scenario. -/
def envM : Env :=
  { env1 with
    getCell := fun op => if op == opM then some cellOutM else none
    resolveCellDep := fun id => if id == lockM.scriptId then some depA else none }

/-- Balancer of the multisig scenario. -/
def balM : CapacityBalancer := ⟨0, ⟨[(lockM, [9])]⟩, none, none⟩

/-- The initial loop state of the multisig scenario. -/
def state0M : LState := ⟨0, [], [], none, [], [liveM]⟩

/-- The state after the multisig scenario's first iteration: the added input
carries since 5 extracted from the lock args. -/
def state1M : LState := ⟨0, [depA], [⟨opM, 5⟩], none, [[9]], []⟩

/-- Out-points of the script-group scenario's three inputs. -/
def opG1 : OutPoint := ⟨List.replicate 32 17, 0⟩

/-- Second out-point of the script-group scenario. -/
def opG2 : OutPoint := ⟨List.replicate 32 17, 1⟩

/-- Third out-point of the script-group scenario. -/
def opG3 : OutPoint := ⟨List.replicate 32 17, 2⟩

/-- Environment of the script-group scenario: inputs 0 and 1 are locked by
lock A (input 1's cell carries a type script), input 2 by lock B. -/
def envG : Env :=
  { env1 with
    getCell := fun op =>
      if op == opG1 then some ⟨10, lockA, none⟩
      else if op == opG2 then some ⟨20, lockA, some ⟨hashDao, .typeHash, [3]⟩⟩
      else if op == opG3 then some ⟨30, lockB, none⟩ else none }

/-- Transaction of the script-group scenario: three inputs, one output with a
type script. -/
def txG : Tx :=
  ⟨[], [], [⟨opG1, 0⟩, ⟨opG2, 0⟩, ⟨opG3, 0⟩],
   [⟨5, lockOut, some ⟨hashDao, .typeHash, [3]⟩⟩], [[]], []⟩

/-- The script groups of the script-group scenario. -/
def gsG : ScriptGroups :=
  ⟨[(hashA, ⟨lockA, .lock, [0, 1], []⟩), (hashB, ⟨lockB, .lock, [2], []⟩)],
   [(hashDao, ⟨⟨hashDao, .typeHash, [3]⟩, .typeGroup, [1], [0]⟩)]⟩

/-- Out-point of the unlocker scenario's single input. -/
def opU : OutPoint := ⟨List.replicate 32 18, 0⟩

/-- Environment of the unlocker scenario. -/
def envU : Env :=
  { env1 with getCell := fun op => if op == opU then some ⟨50, lockA, none⟩ else none }

/-- Transaction of the unlocker scenario: one input locked by lock A. -/
def txU : Tx := ⟨[], [], [⟨opU, 0⟩], [], [], []⟩

/-- The single lock group of the unlocker scenario. -/
def gU : ScriptGroup := ⟨lockA, .lock, [0], []⟩

/-- An unlocker that reports every group as already unlocked. -/
def uAlways : ScriptUnlockerM := ⟨fun _ => true, fun _ _ => some true, fun t _ => some t⟩

/-- An unlocker that matches, reports not-unlocked, and fills by returning the
transaction unchanged. -/
def uFill : ScriptUnlockerM := ⟨fun _ => true, fun _ _ => some false, fun t _ => some t⟩

/-- Unlocker registry mapping lock A to `uAlways`. -/
def usU : List (ScriptId × ScriptUnlockerM) := [(Script.scriptId lockA, uAlways)]

/-- Unlocker registry mapping lock A to `uFill`. -/
def usW : List (ScriptId × ScriptUnlockerM) := [(Script.scriptId lockA, uFill)]

/-- Out-point of the DAO-withdrawal input of the fee-oracle scenarios. -/
def opD : OutPoint := ⟨List.replicate 32 16, 0⟩

/-- The DAO type script of the withdrawal cell: DAO code hash, with a
hash type and args that the classification must ignore. -/
def daoTypeScript : Script := ⟨hashDao, .typeHash, [3]⟩

/-- The DAO-withdrawal cell: 500 shannons, lock A, DAO type script. -/
def cellD : CellOutput := ⟨500, lockA, some daoTypeScript⟩

/-- The DAO-withdrawal input, with non-zero since. -/
def inpD : CellInput := ⟨opD, 7⟩

/-- Prepare header of the DAO scenario. -/
def prepHdr : Header := ⟨10, []⟩

/-- Deposit header of the DAO scenario (block number 2). -/
def depHdr : Header := ⟨2, [1]⟩

/-- Environment of the DAO-withdrawal scenario: the cell data is the 8-byte
little-endian block number 2, both headers resolve, and the DAO formula and
occupied capacity are concrete functions. -/
def envD : Env :=
  { env1 with
    getCell := fun op => if op == opD then some cellD else none
    getCellData := fun op => if op == opD then some [2, 0, 0, 0, 0, 0, 0, 0] else none
    resolveByTx := fun h => if h == opD.txHash then .found prepHdr else .missing
    resolveByNumber := fun n => if n == 2 then .found depHdr else .missing
    daoMaxWithdraw := fun dep prep c occupied =>
      c.capacity + dep.number + prep.number + occupied
    occupiedCapacity := fun _ n => 61 + n }

/-- Environment of the bad-data-length DAO scenario: the cell data has 4 bytes. -/
def envDbad : Env :=
  { envD with getCellData := fun op => if op == opD then some [2, 0, 0, 0] else none }

/-! Supporting lemmas. -/

theorem tx_fee_ok_inv {env : Env} {tx : Tx} {fee : Nat}
    (h : tx_fee env tx = .ok fee) :
    ∃ it ot, inputTotalGo env 0 tx.inputs = .ok it ∧
      outputsCapacityGo 0 tx.outputs = some ot ∧ ot ≤ it ∧ fee = it - ot := by
  unfold tx_fee at h
  split at h
  · rename_i it hin
    split at h
    · exact absurd h (by simp)
    · rename_i ot hout
      split at h
      · rename_i hle
        injection h with h'
        exact ⟨it, ot, hin, hout, hle, h'.symm⟩
      · exact absurd h (by simp)
  · exact absurd h (by simp)
  · exact absurd h (by simp)

theorem tx_fee_eq_of {env : Env} {tx : Tx} {it ot : Nat}
    (hin : inputTotalGo env 0 tx.inputs = .ok it)
    (hout : outputsCapacityGo 0 tx.outputs = some ot) (hle : ot ≤ it) :
    tx_fee env tx = .ok (it - ot) := by
  simp only [tx_fee, hin, hout]
  rw [if_pos hle]

theorem inputTotalGo_lt_u64 {env : Env} {acc it : Nat} {l : List CellInput}
    (h : inputTotalGo env acc l = .ok it) (ha : acc < U64MOD) : it < U64MOD := by
  induction l generalizing acc with
  | nil =>
    unfold inputTotalGo at h
    injection h with h'
    omega
  | cons inp rest ih =>
    unfold inputTotalGo at h
    split at h
    · exact ih h (Nat.mod_lt _ (by norm_num [U64MOD]))
    · exact absurd h (by simp)
    · exact absurd h (by simp)

theorem outputsCapacityGo_append_one {acc : Nat} {xs : List CellOutput} (o : CellOutput) :
    outputsCapacityGo acc (xs ++ [o]) =
      match outputsCapacityGo acc xs with
      | some s => if s + o.capacity < U64MOD then some (s + o.capacity) else none
      | none => none := by
  induction xs generalizing acc with
  | nil =>
    by_cases h : acc + o.capacity < U64MOD <;> simp [outputsCapacityGo, h]
  | cons x rest ih =>
    by_cases h : acc + x.capacity < U64MOD
    · simp only [List.cons_append, outputsCapacityGo, if_pos h]
      exact ih
    · simp only [List.cons_append, outputsCapacityGo, if_neg h]

/-- C2: In `tx_fee`, an input's value is the previous cell's plain capacity,
unless the input's since is non-zero and the cell's type script's code hash
equals the DAO type hash (hash type and args not consulted), in which case it
is the DAO maximum-withdraw formula applied to the deposit header (resolved by
the little-endian block number in the cell data), the prepare header (resolved
by the input's previous tx hash), the cell, and the cell's occupied capacity
for 8-byte data. -/
theorem tx_fee_input_value_routing (env : Env) (inp : CellInput) (cell : CellOutput)
    (hc : env.getCell inp.previousOutput = some cell) :
    ((inp.since = 0 ∨ ∀ ts, cell.typeScript = some ts → ts.codeHash ≠ env.daoTypeHash) →
      inputValue env inp = .ok cell.capacity) ∧
    (∀ ts prep data dep, inp.since ≠ 0 → cell.typeScript = some ts →
      ts.codeHash = env.daoTypeHash →
      env.resolveByTx inp.previousOutput.txHash = .found prep →
      env.getCellData inp.previousOutput = some data → data.length = 8 →
      env.resolveByNumber (le64 data) = .found dep →
      inputValue env inp =
        .ok (env.daoMaxWithdraw dep prep cell (env.occupiedCapacity cell 8))) := by
  constructor
  · intro h
    have hw : (inp.since != 0 &&
        (match cell.typeScript with
         | some ts => ts.codeHash == env.daoTypeHash
         | none => false)) = false := by
      rcases h with h0 | hts
      · simp [h0]
      · cases hcts : cell.typeScript with
        | none => simp
        | some ts => simp [hts ts hcts]
    simp only [inputValue, hc, hw, Bool.false_eq_true, if_false]
  · intro ts prep data dep hs hcts hhash hp hd hlen hn
    have hsb : (inp.since != 0) = true := by simp [hs]
    simp only [inputValue, hc, hcts, hhash, hsb, Bool.true_and, beq_self_eq_true,
      if_true, hp, hd, hlen]
    simp only [hlen, beq_self_eq_true, if_true, hn]

/-- C10: For an input classified as a DAO withdrawal whose prepare header and
cell data resolve, an 8-byte data passes the length assertion and is read as
the little-endian deposit block number, while any other data length makes
`tx_fee` panic through the assertion instead of returning an error. -/
theorem tx_fee_dao_data_length_assertion (env : Env) (inp : CellInput) (cell : CellOutput)
    (ts : Script) (prep : Header) (data : List Nat)
    (hc : env.getCell inp.previousOutput = some cell)
    (hs : inp.since ≠ 0) (hcts : cell.typeScript = some ts)
    (hhash : ts.codeHash = env.daoTypeHash)
    (hp : env.resolveByTx inp.previousOutput.txHash = .found prep)
    (hd : env.getCellData inp.previousOutput = some data) :
    (data.length = 8 →
      inputValue env inp =
        match env.resolveByNumber (le64 data) with
        | .fail => .fail (.headerDep .fromResolver)
        | .missing => .fail (.headerDep (.byNumber (le64 data)))
        | .found dep =>
          .ok (env.daoMaxWithdraw dep prep cell (env.occupiedCapacity cell 8))) ∧
    (data.length ≠ 8 → inputValue env inp = .panic) := by
  have hsb : (inp.since != 0) = true := by simp [hs]
  constructor
  · intro hlen
    simp only [inputValue, hc, hcts, hhash, hsb, Bool.true_and, beq_self_eq_true,
      if_true, hp, hd, hlen]
  · intro hlen
    have hlb : (data.length == 8) = false := by simp [hlen]
    simp only [inputValue, hc, hcts, hhash, hsb, Bool.true_and, beq_self_eq_true,
      if_true, hp, hd, hlb, Bool.false_eq_true, if_false]

/-- Witness for C2: the concrete DAO-withdrawal scenario routes through the
DAO maximum-withdraw formula, 500 + 2 + 10 + 69 = 581. -/
theorem tx_fee_input_value_routing_witness :
    envD.getCell inpD.previousOutput = some cellD ∧ inputValue envD inpD = .ok 581 := by
  refine ⟨by decide, ?_⟩
  have h := (tx_fee_input_value_routing envD inpD cellD (by decide)).2 daoTypeScript
    prepHdr [2, 0, 0, 0, 0, 0, 0, 0] depHdr (by decide) (by decide) (by decide)
    (by decide) (by decide) (by decide) (by decide)
  rw [h]
  decide

/-- Witness for C10: with 4-byte cell data the DAO branch panics. -/
theorem tx_fee_dao_data_length_assertion_witness :
    envDbad.getCellData inpD.previousOutput = some [2, 0, 0, 0] ∧
      inputValue envDbad inpD = .panic := by
  refine ⟨by decide, ?_⟩
  exact (tx_fee_dao_data_length_assertion envDbad inpD cellD daoTypeScript prepHdr
    [2, 0, 0, 0] (by decide) (by decide) (by decide) (by decide) (by decide)
    (by decide)).2 (by decide)

theorem inputValue_ne_overflow (env : Env) (inp : CellInput) (d : Nat) :
    inputValue env inp ≠ .fail (.capacityOverflow d) := by
  unfold inputValue
  repeat' split
  all_goals simp

theorem inputTotalGo_fail_inv {env : Env} {acc : Nat} {l : List CellInput}
    {e : TransactionFeeError} (h : inputTotalGo env acc l = .fail e) :
    ∃ inp, inp ∈ l ∧ inputValue env inp = .fail e := by
  induction l generalizing acc with
  | nil => exact absurd h (by unfold inputTotalGo; simp)
  | cons inp rest ih =>
    unfold inputTotalGo at h
    split at h
    · obtain ⟨inp', hmem, hval⟩ := ih h
      exact ⟨inp', List.mem_cons_of_mem _ hmem, hval⟩
    · rename_i e' hval
      injection h with h'
      exact ⟨inp, List.mem_cons_self _ _, by rw [hval, h']⟩
    · exact absurd h (by simp)

theorem tx_fee_overflow_inv {env : Env} {tx : Tx} {d : Nat}
    (h : tx_fee env tx = .fail (.capacityOverflow d)) :
    ∃ it ot, inputTotalGo env 0 tx.inputs = .ok it ∧
      outputsCapacityGo 0 tx.outputs = some ot ∧ it < ot ∧ d = ot - it := by
  unfold tx_fee at h
  split at h
  · rename_i it hin
    split at h
    · exact absurd h (by simp)
    · rename_i ot hout
      split at h
      · exact absurd h (by simp)
      · rename_i hle
        injection h with h'
        injection h' with h''
        exact ⟨it, ot, hin, hout, by omega, by omega⟩
  · rename_i e hin
    injection h with h'
    obtain ⟨inp, _, hval⟩ := inputTotalGo_fail_inv hin
    rw [h'] at hval
    exact absurd hval (inputValue_ne_overflow env inp d)
  · exact absurd h (by simp)

theorem tx_fee_overflow_of {env : Env} {tx : Tx} {it ot : Nat}
    (hin : inputTotalGo env 0 tx.inputs = .ok it)
    (hout : outputsCapacityGo 0 tx.outputs = some ot) (hlt : it < ot) :
    tx_fee env tx = .fail (.capacityOverflow (ot - it)) := by
  simp only [tx_fee, hin, hout]
  rw [if_neg (by omega)]

theorem step_eq_of {env : Env} {bal : CapacityBalancer}
    {lockScripts : List (Script × List Nat)} {seed : Tx} {bco : CellOutput} {bOcc : Nat}
    {S : LState} {lock : Script} {ph : List Nat} {hp : Bool}
    (hidx : lockScripts.get? S.idx = some (lock, ph))
    (hhp : hasProviderOf env lock (seed.inputs ++ S.inputs) = some hp) :
    step env bal lockScripts seed bco bOcc S =
      match decision env bal lockScripts.length bco bOcc lock S (candidateOf seed S)
          (minFeeOf env bal seed S) with
      | .ret r => .ret r
      | .advance =>
        .cont { S with idx := S.idx + 1,
                       witnesses := padWitnesses seed S.witnesses S.inputs.length }
      | .go chg needMore =>
        if 0 < needMore then
          stepCollect env lockScripts.length seed lock ph hp
            (padWitnesses seed S.witnesses S.inputs.length) chg needMore S
        else
          .cont { S with changeOutput := chg,
                         witnesses := padWitnesses seed S.witnesses S.inputs.length } := by
  simp only [step, hidx, hhp, candidateOf, minFeeOf]

theorem sinceFromLock_eq (mh : List Nat) (lock : Script) :
    sinceFromLock mh lock =
      if lock.codeHash = mh ∧ lock.args.length = 28 then le64 (lock.args.drop 20)
      else 0 := by
  unfold sinceFromLock
  by_cases h1 : lock.codeHash = mh <;> by_cases h2 : lock.args.length = 28 <;>
    simp [h1, h2]

theorem stepCollect_ret_inv {env : Env} {len : Nat} {seed : Tx} {lock : Script}
    {ph : List Nat} {hp : Bool} {wits : List (List Nat)} {chg : Option CellOutput}
    {nm : Nat} {S : LState} {r : BalanceRes}
    (h : stepCollect env len seed lock ph hp wits chg nm S = .ret r) :
    (∃ msg, r = .fail (.capacityNotEnough msg)) ∨
      (∃ id, r = .fail (.resolveCellDepFailed id)) := by
  simp only [stepCollect] at h
  split at h
  · split at h
    · injection h with h'
      exact Or.inl ⟨_, h'.symm⟩
    · exact absurd h (by simp)
  · split at h
    · injection h with h'
      exact Or.inr ⟨_, h'.symm⟩
    · exact absurd h (by simp)

theorem decision_ret_ok_inv {env : Env} {bal : CapacityBalancer} {len : Nat}
    {bco : CellOutput} {bOcc : Nat} {lock : Script} {S : LState} {cand t : Tx}
    {minFee : Nat}
    (h : decision env bal len bco bOcc lock S cand minFee = .ret (.ok t)) :
    t = cand ∧ ∃ fee, tx_fee env cand = .ok fee ∧
      (fee = minFee ∨ (minFee < fee ∧
        ∃ cap, bal.forceSmallChangeAsFee = some cap ∧ fee ≤ cap)) := by
  unfold decision at h
  split at h
  · exact absurd h (by simp)
  · exact absurd h (by simp)
  · exact absurd h (by simp)
  · rename_i fee hfee
    split at h
    · rename_i hbeq
      injection h with h'
      injection h' with h''
      exact ⟨h''.symm, fee, hfee, Or.inl (by simpa using hbeq)⟩
    · rename_i hbeq
      split at h
      · rename_i hlt
        split at h
        · split at h
          · exact absurd h (by simp)
          · exact absurd h (by simp)
        · split at h
          · exact absurd h (by simp)
          · split at h
            · split at h
              · rename_i capLimit hcap
                split at h
                · exact absurd h (by simp)
                · rename_i hnotlt
                  injection h with h'
                  injection h' with h''
                  exact ⟨h''.symm, fee, hfee,
                    Or.inr ⟨hlt, capLimit, hcap, by omega⟩⟩
              · split at h
                · exact absurd h (by simp)
                · exact absurd h (by simp)
            · exact absurd h (by simp)
      · exact absurd h (by simp)

theorem step_ret_ok_inv {env : Env} {bal : CapacityBalancer}
    {lockScripts : List (Script × List Nat)} {seed : Tx} {bco : CellOutput}
    {bOcc : Nat} {S : LState} {t : Tx}
    (h : step env bal lockScripts seed bco bOcc S = .ret (.ok t)) :
    t = candidateOf seed S ∧ ∃ fee, tx_fee env (candidateOf seed S) = .ok fee ∧
      (fee = minFeeOf env bal seed S ∨ (minFeeOf env bal seed S < fee ∧
        ∃ cap, bal.forceSmallChangeAsFee = some cap ∧ fee ≤ cap)) := by
  simp only [step] at h
  split at h
  · exact absurd h (by simp)
  · split at h
    · exact absurd h (by simp)
    · split at h
      · rename_i scrut rr heq
        injection h with h2
        rw [h2] at heq
        exact decision_ret_ok_inv heq
      · exact absurd h (by simp)
      · split at h
        · rcases stepCollect_ret_inv h with ⟨msg, hm⟩ | ⟨id, hm⟩ <;> simp at hm
        · exact absurd h (by simp)

theorem balanceLoop_ok_inv {env : Env} {bal : CapacityBalancer}
    {lockScripts : List (Script × List Nat)} {seed : Tx} {bco : CellOutput}
    {bOcc : Nat} {fuel : Nat} {S : LState} {t : Tx}
    (h : balanceLoop env bal lockScripts seed bco bOcc fuel S = .ok t) :
    ∃ S', step env bal lockScripts seed bco bOcc S' = .ret (.ok t) := by
  induction fuel generalizing S with
  | zero => exact absurd h (by unfold balanceLoop; simp)
  | succ n ih =>
    unfold balanceLoop at h
    split at h
    · rename_i r hstep
      exact ⟨S, by rw [hstep, h]⟩
    · exact ih h

/-- C4: `tx_fee` returns input_total − output_total when the inputs cover the
outputs and fails with `CapacityOverflow(output_total − input_total)`
otherwise; the balancing loop recovers exactly that error by querying the
collector with `need_more_capacity = delta + min_fee`, while every other
`tx_fee` error aborts the iteration as `TxFee(e)` unchanged. -/
theorem tx_fee_overflow_and_recovery (env : Env) (bal : CapacityBalancer)
    (lockScripts : List (Script × List Nat)) (seed : Tx) (bco : CellOutput)
    (bOcc : Nat) (S : LState) (lock : Script) (ph : List Nat) (hp : Bool)
    (tx : Tx) (it ot : Nat)
    (hin : inputTotalGo env 0 tx.inputs = .ok it)
    (hout : outputsCapacityGo 0 tx.outputs = some ot)
    (hidx : lockScripts.get? S.idx = some (lock, ph))
    (hhp : hasProviderOf env lock (seed.inputs ++ S.inputs) = some hp) :
    ((ot ≤ it → tx_fee env tx = .ok (it - ot)) ∧
     (it < ot → tx_fee env tx = .fail (.capacityOverflow (ot - it)))) ∧
    (∀ d, tx_fee env (candidateOf seed S) = .fail (.capacityOverflow d) →
      step env bal lockScripts seed bco bOcc S =
        stepCollect env lockScripts.length seed lock ph hp
          (padWitnesses seed S.witnesses S.inputs.length) S.changeOutput
          (d + minFeeOf env bal seed S) S) ∧
    (∀ e, tx_fee env (candidateOf seed S) = .fail e →
      (∀ d, e ≠ .capacityOverflow d) →
      step env bal lockScripts seed bco bOcc S = .ret (.fail (.txFee e))) := by
  refine ⟨⟨fun hle => tx_fee_eq_of hin hout hle,
          fun hlt => tx_fee_overflow_of hin hout hlt⟩, ?_, ?_⟩
  · intro d hfee
    obtain ⟨it', ot', _, _, hlt', hd⟩ := tx_fee_overflow_inv hfee
    rw [step_eq_of hidx hhp]
    simp only [decision, hfee]
    rw [if_pos (by omega)]
  · intro e hfee hne
    rw [step_eq_of hidx hhp]
    cases e with
    | capacityOverflow d => exact absurd rfl (hne d)
    | txDep => simp only [decision, hfee]
    | headerDep m => simp only [decision, hfee]
    | capacityError => simp only [decision, hfee]

/-- Witness for C4: at the initial state of the converging scenario the fee
oracle underflows by 100 and the iteration queries the collector for 100. -/
theorem tx_fee_overflow_and_recovery_witness :
    tx_fee env1 (candidateOf seed1 state0) = .fail (.capacityOverflow 100) ∧
    step env1 bal1 [(lockA, [7, 7])] seed1 ⟨0, lockA, none⟩ 10 state0 =
      stepCollect env1 1 seed1 lockA [7, 7] false [] none
        (100 + minFeeOf env1 bal1 seed1 state0) state0 := by
  refine ⟨by decide, ?_⟩
  exact (tx_fee_overflow_and_recovery env1 bal1 [(lockA, [7, 7])] seed1
    ⟨0, lockA, none⟩ 10 state0 lockA [7, 7] false (candidateOf seed1 state0) 0 100
    (by decide) (by decide) (by decide) (by decide)).2.1 100 (by decide)

/-- C5: with a surplus but no room for a change cell, no more live cells from
the current provider, and a force-small-change cap: return the candidate when
fee ≤ cap, fail with `ForceSmallChangeAsFeeFailed(fee)` when fee > cap, in
both cases without advancing to further providers. -/
theorem balance_force_small_change_policy (env : Env) (bal : CapacityBalancer)
    (lockScripts : List (Script × List Nat)) (seed : Tx) (bco : CellOutput)
    (bOcc : Nat) (S : LState) (lock : Script) (ph : List Nat) (hp : Bool)
    (fee capLimit : Nat)
    (hidx : lockScripts.get? S.idx = some (lock, ph))
    (hhp : hasProviderOf env lock (seed.inputs ++ S.inputs) = some hp)
    (hfee : tx_fee env (candidateOf seed S) = .ok fee)
    (hgt : minFeeOf env bal seed S < fee)
    (hchg : S.changeOutput = none)
    (hsmall : fee - minFeeOf env bal seed S < bOcc + extraFeeOf env bal bco)
    (hpeek : ((collect_live_cells (baseQueryOf lock) false S.collector).1).isEmpty = true)
    (hforce : bal.forceSmallChangeAsFee = some capLimit) :
    step env bal lockScripts seed bco bOcc S =
      if fee ≤ capLimit then .ret (.ok (candidateOf seed S))
      else .ret (.fail (.forceSmallChangeAsFeeFailed fee)) := by
  rw [step_eq_of hidx hhp]
  have hne : (fee == minFeeOf env bal seed S) = false := by
    simp only [beq_eq_false_iff_ne, ne_eq]
    omega
  simp only [decision, hfee, hne, Bool.false_eq_true, if_false, if_pos hgt, hchg]
  rw [if_neg (by omega)]
  simp only [hpeek, if_true, hforce]
  rcases le_or_lt fee capLimit with hle | hlt
  · rw [if_neg (by omega), if_pos hle]
  · rw [if_pos hlt, if_neg (by omega)]

/-- Witness for C5: the force-small-change scenario with fee 5 ≤ cap 1000
returns the candidate. -/
theorem balance_force_small_change_policy_witness :
    tx_fee env2 (candidateOf seed1 state2f) = .ok 5 ∧
    step env2 bal2 [(lockA, [7, 7])] seed1 ⟨0, lockA, none⟩ 10 state2f =
      .ret (.ok (candidateOf seed1 state2f)) := by
  refine ⟨by decide, ?_⟩
  have h := balance_force_small_change_policy env2 bal2 [(lockA, [7, 7])] seed1
    ⟨0, lockA, none⟩ 10 state2f lockA [7, 7] true 5 1000 (by decide) (by decide)
    (by decide) (by decide) (by decide) (by decide) (by decide) (by decide)
  rw [h, if_pos (by omega)]

/-- C8: every input appended by an iteration of the balancing loop carries
since equal to the little-endian u64 at bytes [20..28) of the active provider
lock's args exactly when that lock's code hash is the multisig type hash and
its args are 28 bytes long, and since 0 for every other provider lock. -/
theorem step_appended_inputs_since (env : Env) (bal : CapacityBalancer)
    (lockScripts : List (Script × List Nat)) (seed : Tx) (bco : CellOutput)
    (bOcc : Nat) (S S' : LState)
    (h : step env bal lockScripts seed bco bOcc S = .cont S') :
    ∃ lock ph tail, lockScripts.get? S.idx = some (lock, ph) ∧
      S'.inputs = S.inputs ++ tail ∧
      ∀ inp ∈ tail, inp.since =
        if lock.codeHash = env.multisigTypeHash ∧ lock.args.length = 28
        then le64 (lock.args.drop 20) else 0 := by
  simp only [step] at h
  split at h
  · exact absurd h (by simp)
  · rename_i pair lock ph hidx
    split at h
    · exact absurd h (by simp)
    · split at h
      · exact absurd h (by simp)
      · injection h with h2
        exact ⟨lock, ph, [], hidx, by rw [← h2, List.append_nil], by simp⟩
      · rename_i hgo
        split at h
        · simp only [stepCollect] at h
          split at h
          · split at h
            · exact absurd h (by simp)
            · injection h with h2
              exact ⟨lock, ph, [], hidx, by rw [← h2, List.append_nil], by simp⟩
          · split at h
            · exact absurd h (by simp)
            · injection h with h2
              refine ⟨lock, ph, _, hidx, by rw [← h2], ?_⟩
              intro inp hmem
              rw [List.mem_map] at hmem
              obtain ⟨c, _, hc⟩ := hmem
              rw [← hc]
              exact sinceFromLock_eq env.multisigTypeHash lock
        · injection h with h2
          exact ⟨lock, ph, [], hidx, by rw [← h2, List.append_nil], by simp⟩

/-- Witness for C8: the multisig scenario's first iteration appends one input
with since 5 = LE64 of args[20..28). -/
theorem step_appended_inputs_since_witness :
    step envM balM [(lockM, [9])] seed1 ⟨0, lockM, none⟩ 10 state0M = .cont state1M ∧
    ∃ lock ph tail, ([(lockM, [9])] : List (Script × List Nat)).get? state0M.idx =
        some (lock, ph) ∧
      state1M.inputs = state0M.inputs ++ tail ∧
      ∀ inp ∈ tail, inp.since =
        if lock.codeHash = envM.multisigTypeHash ∧ lock.args.length = 28
        then le64 (lock.args.drop 20) else 0 := by
  refine ⟨by decide, ?_⟩
  exact step_appended_inputs_since envM balM [(lockM, [9])] seed1 ⟨0, lockM, none⟩ 10
    state0M state1M (by decide)

/-- C1 counterexample: a successful return of `balance_tx_capacity` through
the force-small-change path whose fee-oracle value 5 differs from the minimum
fee 0 for its serialized size, so the fixed point does not hold on every
successful return path. -/
theorem balance_force_return_breaks_fixed_point :
    balance_tx_capacity env2 bal2 seed1 [liveA2] 2 = .ok tx2val ∧
    tx_fee env2 tx2val = .ok 5 ∧
    feeCalc bal2.feeRate (env2.serializedSizeInBlock tx2val) = 0 := by
  exact ⟨by decide, by decide, by decide⟩

/-- C1 (amended): on every successful return of `balance_tx_capacity`, the fee
oracle value of the result either equals `fee_rate.fee(serialized size)` (the
fixed point), or the return came through the force-small-change policy, with
`min_fee < tx_fee(result) ≤ cap`. -/
theorem balance_ok_fee_characterization (env : Env) (bal : CapacityBalancer)
    (seed : Tx) (col : List LiveCell) (fuel : Nat) (t : Tx)
    (h : balance_tx_capacity env bal seed col fuel = .ok t) :
    ∃ fee, tx_fee env t = .ok fee ∧
      (fee = feeCalc bal.feeRate (env.serializedSizeInBlock t) ∨
       (feeCalc bal.feeRate (env.serializedSizeInBlock t) < fee ∧
        ∃ cap, bal.forceSmallChangeAsFee = some cap ∧ fee ≤ cap)) := by
  simp only [balance_tx_capacity] at h
  split at h
  · exact absurd h (by simp)
  · obtain ⟨S', hstep⟩ := balanceLoop_ok_inv h
    obtain ⟨ht, fee, hfee, hdisj⟩ := step_ret_ok_inv hstep
    subst ht
    exact ⟨fee, hfee, hdisj⟩

/-- Witness for C1 (amended): the converging scenario returns with the fixed
point, fee 0 = min fee 0. -/
theorem balance_ok_fee_characterization_witness :
    balance_tx_capacity env1 bal1 seed1 [liveA1] 3 = .ok tx1val ∧
    ∃ fee, tx_fee env1 tx1val = .ok fee ∧
      (fee = feeCalc bal1.feeRate (env1.serializedSizeInBlock tx1val) ∨
       (feeCalc bal1.feeRate (env1.serializedSizeInBlock tx1val) < fee ∧
        ∃ cap, bal1.forceSmallChangeAsFee = some cap ∧ fee ≤ cap)) := by
  refine ⟨by decide, ?_⟩
  exact balance_ok_fee_characterization env1 bal1 seed1 [liveA1] 3 tx1val (by decide)

/-- C3 (code bug): in the two-provider scenario the balancer adds inputs from
both providers, but the global `cell_deps.is_empty()` check makes it skip
resolving provider B's cell-dep, although it is registered; the result's
cell-deps contain only provider A's dep. -/
theorem balance_second_provider_cell_dep_missing :
    balance_tx_capacity env3 bal3 seed1 [liveA3, liveB3] 5 = .ok tx3val ∧
    tx3val.inputs = [⟨opA3, 0⟩, ⟨opB3, 0⟩] ∧
    env3.resolveCellDep lockB.scriptId = some depB ∧
    tx3val.cellDeps = [depA] ∧
    depB ∉ tx3val.cellDeps := by
  exact ⟨by decide, by decide, by decide, by decide, by decide⟩

theorem addInputIndex_sorted_bound {G : List (List Nat × ScriptGroup)}
    {y : List Nat} {m : ScriptGroup} {i : Nat}
    (hG : ∀ p ∈ G, List.Pairwise (· < ·) p.2.inputIndices ∧
      ∀ j ∈ p.2.inputIndices, j < i)
    (hmk : m.inputIndices = []) :
    ∀ p ∈ addInputIndex y m i G, List.Pairwise (· < ·) p.2.inputIndices ∧
      ∀ j ∈ p.2.inputIndices, j < i + 1 := by
  induction G with
  | nil =>
    intro p hp
    simp only [addInputIndex, List.mem_singleton] at hp
    subst hp
    simp [hmk]
  | cons q rest ih =>
    intro p hp
    rw [show addInputIndex y m i (q :: rest) =
        (if q.1 == y
         then (q.1, { q.2 with inputIndices := q.2.inputIndices ++ [i] }) :: rest
         else q :: addInputIndex y m i rest) from rfl] at hp
    split at hp
    · rcases List.mem_cons.mp hp with hq | hrest
      · subst hq
        obtain ⟨hs, hb⟩ := hG q (List.mem_cons_self _ _)
        refine ⟨?_, ?_⟩
        · simp only []
          rw [List.pairwise_append]
          exact ⟨hs, List.pairwise_singleton _ _, fun a ha b hb' => by
            simp only [List.mem_singleton] at hb'
            subst hb'
            exact hb a ha⟩
        · intro j hj
          simp only [] at hj
          rcases List.mem_append.mp hj with h1 | h1
          · exact Nat.lt_succ_of_lt (hb j h1)
          · simp only [List.mem_singleton] at h1
            omega
      · obtain ⟨hs, hb⟩ := hG p (List.mem_cons_of_mem _ hrest)
        exact ⟨hs, fun j hj => Nat.lt_succ_of_lt (hb j hj)⟩
    · rcases List.mem_cons.mp hp with hq | hrest
      · subst hq
        obtain ⟨hs, hb⟩ := hG p (List.mem_cons_self _ _)
        exact ⟨hs, fun j hj => Nat.lt_succ_of_lt (hb j hj)⟩
      · exact ih (fun r hr => hG r (List.mem_cons_of_mem _ hr)) p hrest

theorem addInputIndex_count {G : List (List Nat × ScriptGroup)}
    {y : List Nat} {m : ScriptGroup} {i : Nat}
    (hni : ∀ p ∈ G, i ∉ p.2.inputIndices) :
    groupCount i (addInputIndex y m i G) = 1 ∧
    ∀ j, j ≠ i → groupCount j (addInputIndex y m i G) = groupCount j G := by
  induction G with
  | nil =>
    constructor
    · simp [addInputIndex, groupCount]
    · intro j hj
      simp [addInputIndex, groupCount, List.countP_cons, hj]
  | cons q rest ih =>
    rw [show addInputIndex y m i (q :: rest) =
        (if q.1 == y
         then (q.1, { q.2 with inputIndices := q.2.inputIndices ++ [i] }) :: rest
         else q :: addInputIndex y m i rest) from rfl]
    have hqni := hni q (List.mem_cons_self _ _)
    have hrest : ∀ p ∈ rest, i ∉ p.2.inputIndices :=
      fun p hp => hni p (List.mem_cons_of_mem _ hp)
    have hrest0 : groupCount i rest = 0 := by
      rw [groupCount, List.countP_eq_zero]
      intro p hp
      simp [hrest p hp]
    split
    · constructor
      · simp only [groupCount, List.countP_cons]
        rw [groupCount] at hrest0
        rw [hrest0]
        simp
      · intro j hj
        simp only [groupCount, List.countP_cons]
        have : (j ∈ q.2.inputIndices ++ [i]) ↔ (j ∈ q.2.inputIndices) := by
          simp [hj]
        simp [this]
    · obtain ⟨ih1, ih2⟩ := ih hrest
      constructor
      · simp only [groupCount, List.countP_cons]
        rw [groupCount] at ih1
        rw [ih1]
        simp [hqni]
      · intro j hj
        simp only [groupCount, List.countP_cons]
        simp only [groupCount] at ih2
        rw [ih2 j hj]

theorem addInputIndex_outputs {G : List (List Nat × ScriptGroup)}
    {y : List Nat} {m : ScriptGroup} {i : Nat}
    (hmk : m.outputIndices = [])
    (hG : ∀ p ∈ G, p.2.outputIndices = []) :
    ∀ p ∈ addInputIndex y m i G, p.2.outputIndices = [] := by
  induction G with
  | nil =>
    intro p hp
    simp only [addInputIndex, List.mem_singleton] at hp
    subst hp
    simpa using hmk
  | cons q rest ih =>
    intro p hp
    rw [show addInputIndex y m i (q :: rest) =
        (if q.1 == y
         then (q.1, { q.2 with inputIndices := q.2.inputIndices ++ [i] }) :: rest
         else q :: addInputIndex y m i rest) from rfl] at hp
    split at hp
    · rcases List.mem_cons.mp hp with hq | hr
      · subst hq
        simpa using hG q (List.mem_cons_self _ _)
      · exact hG p (List.mem_cons_of_mem _ hr)
    · rcases List.mem_cons.mp hp with hq | hr
      · subst hq
        exact hG p (List.mem_cons_self _ _)
      · exact ih (fun r hr' => hG r (List.mem_cons_of_mem _ hr')) p hr

theorem addOutputIndex_sorted_bound {G : List (List Nat × ScriptGroup)}
    {y : List Nat} {m : ScriptGroup} {i : Nat}
    (hG : ∀ p ∈ G, List.Pairwise (· < ·) p.2.outputIndices ∧
      ∀ j ∈ p.2.outputIndices, j < i) :
    ∀ p ∈ addOutputIndex y m i G, List.Pairwise (· < ·) p.2.outputIndices ∧
      ∀ j ∈ p.2.outputIndices, j < i + 1 := by
  induction G with
  | nil =>
    intro p hp
    simp only [addOutputIndex, List.mem_singleton] at hp
    subst hp
    simp
  | cons q rest ih =>
    intro p hp
    rw [show addOutputIndex y m i (q :: rest) =
        (if q.1 == y
         then (q.1, { q.2 with outputIndices := q.2.outputIndices ++ [i] }) :: rest
         else q :: addOutputIndex y m i rest) from rfl] at hp
    split at hp
    · rcases List.mem_cons.mp hp with hq | hrest
      · subst hq
        obtain ⟨hs, hb⟩ := hG q (List.mem_cons_self _ _)
        refine ⟨?_, ?_⟩
        · simp only []
          rw [List.pairwise_append]
          exact ⟨hs, List.pairwise_singleton _ _, fun a ha b hb' => by
            simp only [List.mem_singleton] at hb'
            subst hb'
            exact hb a ha⟩
        · intro j hj
          simp only [] at hj
          rcases List.mem_append.mp hj with h1 | h1
          · exact Nat.lt_succ_of_lt (hb j h1)
          · simp only [List.mem_singleton] at h1
            omega
      · obtain ⟨hs, hb⟩ := hG p (List.mem_cons_of_mem _ hrest)
        exact ⟨hs, fun j hj => Nat.lt_succ_of_lt (hb j hj)⟩
    · rcases List.mem_cons.mp hp with hq | hrest
      · subst hq
        obtain ⟨hs, hb⟩ := hG p (List.mem_cons_self _ _)
        exact ⟨hs, fun j hj => Nat.lt_succ_of_lt (hb j hj)⟩
      · exact ih (fun r hr => hG r (List.mem_cons_of_mem _ hr)) p hrest

theorem addOutputIndex_inputs {G : List (List Nat × ScriptGroup)}
    {y : List Nat} {m : ScriptGroup} {i : Nat}
    (hmk : List.Pairwise (· < ·) m.inputIndices)
    (hG : ∀ p ∈ G, List.Pairwise (· < ·) p.2.inputIndices) :
    ∀ p ∈ addOutputIndex y m i G, List.Pairwise (· < ·) p.2.inputIndices := by
  induction G with
  | nil =>
    intro p hp
    simp only [addOutputIndex, List.mem_singleton] at hp
    subst hp
    simpa using hmk
  | cons q rest ih =>
    intro p hp
    rw [show addOutputIndex y m i (q :: rest) =
        (if q.1 == y
         then (q.1, { q.2 with outputIndices := q.2.outputIndices ++ [i] }) :: rest
         else q :: addOutputIndex y m i rest) from rfl] at hp
    split at hp
    · rcases List.mem_cons.mp hp with hq | hrest
      · subst hq
        simpa using hG q (List.mem_cons_self _ _)
      · exact hG p (List.mem_cons_of_mem _ hrest)
    · rcases List.mem_cons.mp hp with hq | hrest
      · subst hq
        exact hG p (List.mem_cons_self _ _)
      · exact ih (fun r hr => hG r (List.mem_cons_of_mem _ hr)) p hrest

theorem genGroupsInputs_spec (env : Env) :
    ∀ (l : List CellInput) (k : Nat) (LG TG LG' TG' : List (List Nat × ScriptGroup)),
    genGroupsInputs env k LG TG l = some (LG', TG') →
    (∀ p ∈ LG, List.Pairwise (· < ·) p.2.inputIndices ∧
      (∀ j ∈ p.2.inputIndices, j < k) ∧ p.2.outputIndices = []) →
    (∀ i, k ≤ i → groupCount i LG = 0) →
    (∀ i, i < k → groupCount i LG = 1) →
    (∀ p ∈ TG, List.Pairwise (· < ·) p.2.inputIndices ∧
      (∀ j ∈ p.2.inputIndices, j < k) ∧ p.2.outputIndices = []) →
    ((∀ p ∈ LG', List.Pairwise (· < ·) p.2.inputIndices ∧
       (∀ j ∈ p.2.inputIndices, j < k + l.length) ∧ p.2.outputIndices = []) ∧
     (∀ i, k + l.length ≤ i → groupCount i LG' = 0) ∧
     (∀ i, i < k + l.length → groupCount i LG' = 1) ∧
     (∀ p ∈ TG', List.Pairwise (· < ·) p.2.inputIndices ∧
       (∀ j ∈ p.2.inputIndices, j < k + l.length) ∧ p.2.outputIndices = [])) := by
  intro l
  induction l with
  | nil =>
    intro k LG TG LG' TG' h hL hz ho hT
    unfold genGroupsInputs at h
    injection h with h'
    injection h' with h1 h2
    subst h1
    subst h2
    simp only [List.length_nil, Nat.add_zero]
    exact ⟨hL, hz, ho, hT⟩
  | cons inp rest ih =>
    intro k LG TG LG' TG' h hL hz ho hT
    simp only [genGroupsInputs] at h
    cases hcell : env.getCell inp.previousOutput with
    | none => rw [hcell] at h; exact absurd h (by simp)
    | some output =>
      rw [hcell] at h
      simp only [] at h
      have hni : ∀ p ∈ LG, k ∉ p.2.inputIndices :=
        fun p hp hkin => absurd ((hL p hp).2.1 k hkin) (lt_irrefl k)
      have hcnt := addInputIndex_count (G := LG)
        (y := env.calcScriptHash output.lock)
        (m := ScriptGroup.fromLockScript output.lock) (i := k) hni
      have hLsb := addInputIndex_sorted_bound (G := LG)
        (y := env.calcScriptHash output.lock)
        (m := ScriptGroup.fromLockScript output.lock) (i := k)
        (fun p hp => ⟨(hL p hp).1, (hL p hp).2.1⟩) rfl
      have hLout := addInputIndex_outputs (G := LG)
        (y := env.calcScriptHash output.lock)
        (m := ScriptGroup.fromLockScript output.lock) (i := k) rfl
        (fun p hp => (hL p hp).2.2)
      have hL1 : ∀ p ∈ addInputIndex (env.calcScriptHash output.lock)
          (ScriptGroup.fromLockScript output.lock) k LG,
          List.Pairwise (· < ·) p.2.inputIndices ∧
          (∀ j ∈ p.2.inputIndices, j < k + 1) ∧ p.2.outputIndices = [] :=
        fun p hp => ⟨(hLsb p hp).1, (hLsb p hp).2, hLout p hp⟩
      have hz1 : ∀ i, k + 1 ≤ i → groupCount i (addInputIndex
          (env.calcScriptHash output.lock)
          (ScriptGroup.fromLockScript output.lock) k LG) = 0 := by
        intro i hi
        rw [hcnt.2 i (by omega)]
        exact hz i (by omega)
      have ho1 : ∀ i, i < k + 1 → groupCount i (addInputIndex
          (env.calcScriptHash output.lock)
          (ScriptGroup.fromLockScript output.lock) k LG) = 1 := by
        intro i hi
        rcases Nat.lt_or_ge i k with hik | hik
        · rw [hcnt.2 i (by omega)]
          exact ho i hik
        · have : i = k := by omega
          subst this
          exact hcnt.1
      cases hts : output.typeScript with
      | none =>
        rw [hts] at h
        simp only [] at h
        have hT1 : ∀ p ∈ TG, List.Pairwise (· < ·) p.2.inputIndices ∧
            (∀ j ∈ p.2.inputIndices, j < k + 1) ∧ p.2.outputIndices = [] :=
          fun p hp => ⟨(hT p hp).1,
            fun j hj => Nat.lt_succ_of_lt ((hT p hp).2.1 j hj), (hT p hp).2.2⟩
        have hres := ih (k + 1) _ _ LG' TG' h hL1 hz1 ho1 hT1
        have e : k + 1 + rest.length = k + (inp :: rest).length := by
          simp [List.length_cons]
          omega
        rw [e] at hres
        exact hres
      | some t =>
        rw [hts] at h
        simp only [] at h
        have hTsb := addInputIndex_sorted_bound (G := TG)
          (y := env.calcScriptHash t)
          (m := ScriptGroup.fromTypeScript t) (i := k)
          (fun p hp => ⟨(hT p hp).1, (hT p hp).2.1⟩) rfl
        have hTout := addInputIndex_outputs (G := TG)
          (y := env.calcScriptHash t)
          (m := ScriptGroup.fromTypeScript t) (i := k) rfl
          (fun p hp => (hT p hp).2.2)
        have hT1 : ∀ p ∈ addInputIndex (env.calcScriptHash t)
            (ScriptGroup.fromTypeScript t) k TG,
            List.Pairwise (· < ·) p.2.inputIndices ∧
            (∀ j ∈ p.2.inputIndices, j < k + 1) ∧ p.2.outputIndices = [] :=
          fun p hp => ⟨(hTsb p hp).1, (hTsb p hp).2, hTout p hp⟩
        have hres := ih (k + 1) _ _ LG' TG' h hL1 hz1 ho1 hT1
        have e : k + 1 + rest.length = k + (inp :: rest).length := by
          simp [List.length_cons]
          omega
        rw [e] at hres
        exact hres

theorem genGroupsOutputs_spec (env : Env) :
    ∀ (l : List CellOutput) (k : Nat) (TG : List (List Nat × ScriptGroup)),
    (∀ p ∈ TG, List.Pairwise (· < ·) p.2.inputIndices ∧
      List.Pairwise (· < ·) p.2.outputIndices ∧ (∀ j ∈ p.2.outputIndices, j < k)) →
    ∀ p ∈ genGroupsOutputs env k TG l, List.Pairwise (· < ·) p.2.inputIndices ∧
      List.Pairwise (· < ·) p.2.outputIndices := by
  intro l
  induction l with
  | nil =>
    intro k TG hT p hp
    unfold genGroupsOutputs at hp
    exact ⟨(hT p hp).1, (hT p hp).2.1⟩
  | cons o rest ih =>
    intro k TG hT p hp
    simp only [genGroupsOutputs] at hp
    cases hts : o.typeScript with
    | none =>
      rw [hts] at hp
      simp only [] at hp
      exact ih (k + 1) TG (fun q hq => ⟨(hT q hq).1, (hT q hq).2.1,
        fun j hj => Nat.lt_succ_of_lt ((hT q hq).2.2 j hj)⟩) p hp
    | some t =>
      rw [hts] at hp
      simp only [] at hp
      have hsb := addOutputIndex_sorted_bound (G := TG)
        (y := env.calcScriptHash t) (m := ScriptGroup.fromTypeScript t) (i := k)
        (fun q hq => ⟨(hT q hq).2.1, (hT q hq).2.2⟩)
      have hin := addOutputIndex_inputs (G := TG)
        (y := env.calcScriptHash t) (m := ScriptGroup.fromTypeScript t) (i := k)
        List.Pairwise.nil (fun q hq => (hT q hq).1)
      exact ih (k + 1) _ (fun q hq => ⟨hin q hq, (hsb q hq).1, (hsb q hq).2⟩) p hp

/-- C9: on success of `gen_script_groups`, every input index below the input
count lies in exactly one lock group's input indices and in none beyond the
input count (so their union is exactly the index range); within every group
the index lists are strictly ascending; and lock groups have no output
indices. -/
theorem gen_script_groups_partition (env : Env) (tx : Tx) (gs : ScriptGroups)
    (h : gen_script_groups env tx = some gs) :
    (∀ i, i < tx.inputs.length → groupCount i gs.lockGroups = 1) ∧
    (∀ i, tx.inputs.length ≤ i → groupCount i gs.lockGroups = 0) ∧
    (∀ p ∈ gs.lockGroups, List.Pairwise (· < ·) p.2.inputIndices ∧
      p.2.outputIndices = []) ∧
    (∀ p ∈ gs.typeGroups, List.Pairwise (· < ·) p.2.inputIndices ∧
      List.Pairwise (· < ·) p.2.outputIndices) := by
  unfold gen_script_groups at h
  split at h
  · exact absurd h (by simp)
  · rename_i pair LG TG hgen
    injection h with h'
    subst h'
    have hres := genGroupsInputs_spec env tx.inputs 0 [] [] LG TG hgen
      (fun p hp => absurd hp (List.not_mem_nil p))
      (fun i _ => rfl)
      (fun i hi => absurd hi (Nat.not_lt_zero i))
      (fun p hp => absurd hp (List.not_mem_nil p))
    rw [Nat.zero_add] at hres
    refine ⟨fun i hi => hres.2.2.1 i hi, fun i hi => hres.2.1 i hi,
      fun p hp => ⟨(hres.1 p hp).1, (hres.1 p hp).2.2⟩, ?_⟩
    intro p hp
    refine genGroupsOutputs_spec env tx.outputs 0 TG ?_ p hp
    intro q hq
    obtain ⟨hs, _, hout⟩ := hres.2.2.2 q hq
    rw [hout]
    exact ⟨hs, List.Pairwise.nil, fun j hj => absurd hj (List.not_mem_nil j)⟩

/-- Witness for C9: a three-input, one-typed-output transaction whose groups
satisfy the partition, ordering and empty-lock-output properties. -/
theorem gen_script_groups_partition_witness :
    gen_script_groups envG txG = some gsG ∧
    ((∀ i, i < txG.inputs.length → groupCount i gsG.lockGroups = 1) ∧
     (∀ i, txG.inputs.length ≤ i → groupCount i gsG.lockGroups = 0) ∧
     (∀ p ∈ gsG.lockGroups, List.Pairwise (· < ·) p.2.inputIndices ∧
       p.2.outputIndices = []) ∧
     (∀ p ∈ gsG.typeGroups, List.Pairwise (· < ·) p.2.inputIndices ∧
       List.Pairwise (· < ·) p.2.outputIndices)) := by
  refine ⟨by decide, ?_⟩
  exact gen_script_groups_partition envG txG gsG (by decide)

theorem fillGo_spec (us : List (ScriptId × ScriptUnlockerM)) :
    ∀ (gl : List ScriptGroup) (tx : Tx) (acc : List ScriptGroup) (tx' : Tx)
      (nm : List ScriptGroup),
    fillGo us tx acc gl = some (tx', nm) →
    ∀ (g : ScriptGroup),
    (g ∈ acc → g ∈ nm) ∧
    (g ∈ gl → lookupUnlocker us g.script.scriptId = none → g ∈ nm) ∧
    (∀ u, lookupUnlocker us g.script.scriptId = some u →
      (g ∈ gl → (∀ t, u.isUnlocked t g = some false) →
        u.matchArgs g.script.args = false → g ∈ nm) ∧
      (g ∉ acc → (∀ t, u.isUnlocked t g = some true) → g ∉ nm) ∧
      (g ∉ acc → (∀ t, u.isUnlocked t g = some false) →
        u.matchArgs g.script.args = true → g ∉ nm) ∧
      (g ∈ gl → (∀ t, u.isUnlocked t g = some false) →
        u.matchArgs g.script.args = true →
        ∃ ta tb, u.fillPlaceholderWitness ta g = some tb)) := by
  intro gl
  induction gl with
  | nil =>
    intro tx acc tx' nm h g
    unfold fillGo at h
    injection h with h'
    injection h' with h1 h2
    subst h2
    refine ⟨fun hg => hg, fun hg _ => absurd hg (List.not_mem_nil g), ?_⟩
    intro u hu
    exact ⟨fun hg _ _ => absurd hg (List.not_mem_nil g),
      fun hna _ hmem => hna hmem,
      fun hna _ _ hmem => hna hmem,
      fun hg _ _ => absurd hg (List.not_mem_nil g)⟩
  | cons g0 rest ih =>
    intro tx acc tx' nm h g
    simp only [fillGo] at h
    cases hlk : lookupUnlocker us g0.script.scriptId with
    | none =>
      rw [hlk] at h
      simp only [] at h
      have IH := ih tx (acc ++ [g0]) tx' nm h g
      by_cases hg : g = g0
      · subst hg
        refine ⟨fun hacc => IH.1 (List.mem_append_left _ hacc), ?_, ?_⟩
        · intro _ _
          exact IH.1 (List.mem_append_right _ (List.mem_singleton_self g))
        · intro u hu
          rw [hlk] at hu
          exact absurd hu (by simp)
      · refine ⟨fun hacc => IH.1 (List.mem_append_left _ hacc), ?_, ?_⟩
        · intro hmem hnone
          rcases List.mem_cons.mp hmem with h1 | h1
          · exact absurd h1 hg
          · exact IH.2.1 h1 hnone
        · intro u hu
          obtain ⟨iha, ihb, ihc, ihd⟩ := IH.2.2 u hu
          refine ⟨?_, ?_, ?_, ?_⟩
          · intro hmem hfalse hargs
            rcases List.mem_cons.mp hmem with h1 | h1
            · exact absurd h1 hg
            · exact iha h1 hfalse hargs
          · intro hna htrue
            refine ihb ?_ htrue
            intro hmem
            rcases List.mem_append.mp hmem with h1 | h1
            · exact hna h1
            · exact hg (List.mem_singleton.mp h1)
          · intro hna hfalse hargs
            refine ihc ?_ hfalse hargs
            intro hmem
            rcases List.mem_append.mp hmem with h1 | h1
            · exact hna h1
            · exact hg (List.mem_singleton.mp h1)
          · intro hmem hfalse hargs
            rcases List.mem_cons.mp hmem with h1 | h1
            · exact absurd h1 hg
            · exact ihd h1 hfalse hargs
    | some u0 =>
      rw [hlk] at h
      simp only [] at h
      cases h1 : u0.isUnlocked tx g0 with
      | none => rw [h1] at h; exact absurd h (by simp)
      | some unlocked =>
        rw [h1] at h
        cases unlocked with
        | true =>
          simp only [] at h
          have IH := ih tx acc tx' nm h g
          by_cases hg : g = g0
          · subst hg
            refine ⟨IH.1, ?_, ?_⟩
            · intro _ hnone
              rw [hlk] at hnone
              exact absurd hnone (by simp)
            · intro u hu
              rw [hlk] at hu
              injection hu with hu'
              subst hu'
              obtain ⟨iha, ihb, ihc, ihd⟩ := IH.2.2 u0 hlk
              refine ⟨?_, ihb, ihc, ?_⟩
              · intro _ hfalse _
                rw [hfalse tx] at h1
                exact absurd h1 (by simp)
              · intro _ hfalse _
                rw [hfalse tx] at h1
                exact absurd h1 (by simp)
          · refine ⟨IH.1, ?_, ?_⟩
            · intro hmem hnone
              rcases List.mem_cons.mp hmem with hh | hh
              · exact absurd hh hg
              · exact IH.2.1 hh hnone
            · intro u hu
              obtain ⟨iha, ihb, ihc, ihd⟩ := IH.2.2 u hu
              refine ⟨?_, ihb, ihc, ?_⟩
              · intro hmem hfalse hargs
                rcases List.mem_cons.mp hmem with hh | hh
                · exact absurd hh hg
                · exact iha hh hfalse hargs
              · intro hmem hfalse hargs
                rcases List.mem_cons.mp hmem with hh | hh
                · exact absurd hh hg
                · exact ihd hh hfalse hargs
        | false =>
          simp only [] at h
          cases hm : u0.matchArgs g0.script.args with
          | true =>
            rw [hm] at h
            simp only [if_true] at h
            cases hf : u0.fillPlaceholderWitness tx g0 with
            | none => rw [hf] at h; exact absurd h (by simp)
            | some tx2 =>
              rw [hf] at h
              simp only [] at h
              have IH := ih tx2 acc tx' nm h g
              by_cases hg : g = g0
              · subst hg
                refine ⟨IH.1, ?_, ?_⟩
                · intro _ hnone
                  rw [hlk] at hnone
                  exact absurd hnone (by simp)
                · intro u hu
                  rw [hlk] at hu
                  injection hu with hu'
                  subst hu'
                  obtain ⟨iha, ihb, ihc, ihd⟩ := IH.2.2 u0 hlk
                  refine ⟨?_, ihb, ihc, ?_⟩
                  · intro _ _ hargs
                    rw [hargs] at hm
                    exact absurd hm (by simp)
                  · intro _ _ _
                    exact ⟨tx, tx2, hf⟩
              · refine ⟨IH.1, ?_, ?_⟩
                · intro hmem hnone
                  rcases List.mem_cons.mp hmem with hh | hh
                  · exact absurd hh hg
                  · exact IH.2.1 hh hnone
                · intro u hu
                  obtain ⟨iha, ihb, ihc, ihd⟩ := IH.2.2 u hu
                  refine ⟨?_, ihb, ihc, ?_⟩
                  · intro hmem hfalse hargs
                    rcases List.mem_cons.mp hmem with hh | hh
                    · exact absurd hh hg
                    · exact iha hh hfalse hargs
                  · intro hmem hfalse hargs
                    rcases List.mem_cons.mp hmem with hh | hh
                    · exact absurd hh hg
                    · exact ihd hh hfalse hargs
          | false =>
            rw [hm] at h
            simp only [Bool.false_eq_true, if_false] at h
            have IH := ih tx (acc ++ [g0]) tx' nm h g
            by_cases hg : g = g0
            · subst hg
              refine ⟨fun hacc => IH.1 (List.mem_append_left _ hacc), ?_, ?_⟩
              · intro _ hnone
                rw [hlk] at hnone
                exact absurd hnone (by simp)
              · intro u hu
                rw [hlk] at hu
                injection hu with hu'
                subst hu'
                refine ⟨?_, ?_, ?_, ?_⟩
                · intro _ _ _
                  exact IH.1 (List.mem_append_right _ (List.mem_singleton_self _))
                · intro _ htrue _
                  rw [htrue tx] at h1
                  exact absurd h1 (by simp)
                · intro _ _ hargs
                  rw [hargs] at hm
                  exact absurd hm (by simp)
                · intro _ _ hargs
                  rw [hargs] at hm
                  exact absurd hm (by simp)
            · refine ⟨fun hacc => IH.1 (List.mem_append_left _ hacc), ?_, ?_⟩
              · intro hmem hnone
                rcases List.mem_cons.mp hmem with hh | hh
                · exact absurd hh hg
                · exact IH.2.1 hh hnone
              · intro u hu
                obtain ⟨iha, ihb, ihc, ihd⟩ := IH.2.2 u hu
                refine ⟨?_, ?_, ?_, ?_⟩
                · intro hmem hfalse hargs
                  rcases List.mem_cons.mp hmem with hh | hh
                  · exact absurd hh hg
                  · exact iha hh hfalse hargs
                · intro hna htrue
                  refine ihb ?_ htrue
                  intro hmem
                  rcases List.mem_append.mp hmem with hh | hh
                  · exact hna hh
                  · exact hg (List.mem_singleton.mp hh)
                · intro hna hfalse hargs
                  refine ihc ?_ hfalse hargs
                  intro hmem
                  rcases List.mem_append.mp hmem with hh | hh
                  · exact hna hh
                  · exact hg (List.mem_singleton.mp hh)
                · intro hmem hfalse hargs
                  rcases List.mem_cons.mp hmem with hh | hh
                  · exact absurd hh hg
                  · exact ihd hh hfalse hargs

/-- C7 counterexample: a lock group whose registered unlocker reports it
already unlocked is skipped silently; the returned unmatched list is empty,
while the claim says such a group is recorded in it. -/
theorem fill_placeholder_skips_unlocked_group :
    fill_placeholder_witnesses envU usU txU = some (txU, []) ∧
    gen_script_groups envU txU = some ⟨[(hashA, gU)], []⟩ ∧
    lookupUnlocker usU gU.script.scriptId = some uAlways ∧
    uAlways.isUnlocked txU gU = some true := by
  exact ⟨by decide, by decide, rfl, rfl⟩

/-- C7 (amended): for every lock group, if no unlocker is registered it is
recorded unmatched; if one is registered and reports the group already
unlocked, the group is skipped (not recorded, transaction untouched for it);
if it reports not-unlocked, the group is recorded unmatched when match_args is
false, and otherwise it is not recorded and its fill_placeholder_witness was
invoked successfully. -/
theorem fill_placeholder_witnesses_matching (env : Env)
    (us : List (ScriptId × ScriptUnlockerM)) (tx tx' : Tx) (nm : List ScriptGroup)
    (gs : ScriptGroups) (hgs : gen_script_groups env tx = some gs)
    (h : fill_placeholder_witnesses env us tx = some (tx', nm)) :
    ∀ g ∈ gs.lockGroups.map (fun p => p.2),
      (lookupUnlocker us g.script.scriptId = none → g ∈ nm) ∧
      (∀ u, lookupUnlocker us g.script.scriptId = some u →
        ((∀ t, u.isUnlocked t g = some true) → g ∉ nm) ∧
        ((∀ t, u.isUnlocked t g = some false) →
          (u.matchArgs g.script.args = false → g ∈ nm) ∧
          (u.matchArgs g.script.args = true → g ∉ nm ∧
            ∃ ta tb, u.fillPlaceholderWitness ta g = some tb))) := by
  intro g hg
  unfold fill_placeholder_witnesses at h
  rw [hgs] at h
  simp only [] at h
  have spec := fillGo_spec us (gs.lockGroups.map (fun p => p.2)) tx [] tx' nm h g
  refine ⟨fun hnone => spec.2.1 hg hnone, ?_⟩
  intro u hu
  obtain ⟨iha, ihb, ihc, ihd⟩ := spec.2.2 u hu
  exact ⟨fun htrue => ihb (List.not_mem_nil g) htrue,
    fun hfalse => ⟨fun hargs => iha hg hfalse hargs,
      fun hargs => ⟨ihc (List.not_mem_nil g) hfalse hargs, ihd hg hfalse hargs⟩⟩⟩

/-- Witness for C7 (amended): a registered, matching, not-yet-unlocked group
is filled and left off the unmatched list. -/
theorem fill_placeholder_witnesses_matching_witness :
    fill_placeholder_witnesses envU usW txU = some (txU, []) ∧
    gU ∉ ([] : List ScriptGroup) ∧
    ∃ ta tb, uFill.fillPlaceholderWitness ta gU = some tb := by
  refine ⟨by decide, ?_, ?_⟩ <;>
  · have spec := fill_placeholder_witnesses_matching envU usW txU txU []
      ⟨[(hashA, gU)], []⟩ (by decide) (by decide)
    have hg : gU ∈ (ScriptGroups.mk [(hashA, gU)] []).lockGroups.map
        (fun p => p.2) := by decide
    have hres := ((spec gU hg).2 uFill rfl).2 (fun t => rfl)
    first
    | exact (hres.2 rfl).1
    | exact (hres.2 rfl).2

theorem filter_not_mem_length_lt {l chosen : List LiveCell} {c : LiveCell}
    (hc : c ∈ l) (hcc : c ∈ chosen) :
    (l.filter (fun x => decide (x ∉ chosen))).length < l.length := by
  induction l with
  | nil => exact absurd hc (List.not_mem_nil c)
  | cons a rest ih =>
    rw [List.filter_cons]
    rcases List.mem_cons.mp hc with hca | hcr
    · subst hca
      rw [if_neg (by simp [hcc])]
      exact Nat.lt_succ_of_le (List.length_filter_le _ rest)
    · split
      · simpa using ih hcr
      · exact Nat.lt_succ_of_lt (ih hcr)

theorem takeUntilCap_subset (t : Nat) : ∀ (acc : Nat) (l : List LiveCell),
    ∀ c ∈ takeUntilCap t acc l, c ∈ l := by
  intro acc l
  induction l generalizing acc with
  | nil => intro c hc; exact absurd hc (by unfold takeUntilCap; simp)
  | cons a rest ih =>
    intro c hc
    unfold takeUntilCap at hc
    split at hc
    · exact absurd hc (List.not_mem_nil c)
    · rcases List.mem_cons.mp hc with h1 | h1
      · exact h1 ▸ List.mem_cons_self a rest
      · exact List.mem_cons_of_mem a (ih _ c h1)

theorem takeUntilCap_ne_nil {t : Nat} {l : List LiveCell} (ht : 0 < t)
    (hl : l ≠ []) : takeUntilCap t 0 l ≠ [] := by
  cases l with
  | nil => exact absurd rfl hl
  | cons a rest =>
    unfold takeUntilCap
    rw [if_neg (by omega)]
    simp

theorem collect_chosen_subset (q : CellQueryOptions) (b : Bool) (st : List LiveCell) :
    ∀ c ∈ (collect_live_cells q b st).1, c ∈ st := by
  intro c hc
  simp only [collect_live_cells] at hc
  split at hc
  · exact List.mem_of_mem_filter hc
  · exact List.mem_of_mem_filter (takeUntilCap_subset _ _ _ c hc)

theorem collect_empty_state {q : CellQueryOptions} {st : List LiveCell}
    (h : (collect_live_cells q true st).1 = []) :
    (collect_live_cells q true st).2 = st := by
  simp only [collect_live_cells] at h ⊢
  rw [h]
  simp

theorem collect_nonempty_state {q : CellQueryOptions} {st : List LiveCell}
    (h : (collect_live_cells q true st).1 ≠ []) :
    (collect_live_cells q true st).2.length < st.length := by
  have hsub := collect_chosen_subset q true st
  rcases List.exists_mem_of_ne_nil _ h with ⟨c, hc⟩
  have hcs : c ∈ st := hsub c hc
  have hemp : (collect_live_cells q true st).1.isEmpty = false := by
    cases hXe : (collect_live_cells q true st).1.isEmpty
    · rfl
    · exact absurd (List.isEmpty_iff.mp hXe) h
  simp only [collect_live_cells] at hemp hc ⊢
  rw [hemp]
  simp only [Bool.not_false, Bool.and_true, if_true]
  exact filter_not_mem_length_lt hcs hc

theorem padWitnesses_stable (seed : Tx) (w : List (List Nat)) (n : Nat) :
    padWitnesses seed (padWitnesses seed w n) n = padWitnesses seed w n := by
  unfold padWitnesses
  rw [List.length_append, List.length_replicate]
  have hz : (seed.inputs.length + n) -
      (seed.witnesses.length + (w.length +
        ((seed.inputs.length + n) - (seed.witnesses.length + w.length)))) = 0 := by
    omega
  rw [hz]
  simp

/-- C6 counterexample: a loop iteration that neither advances the provider
index, nor adds inputs, nor returns — it only grows the change output. -/
theorem balance_change_only_iteration :
    step env1 bal1 [(lockA, [7, 7])] seed1 ⟨0, lockA, none⟩ 10 state1 = .cont state2 ∧
    state2.idx = state1.idx ∧ state2.inputs = state1.inputs ∧
    state2.changeOutput ≠ state1.changeOutput := by
  exact ⟨by decide, rfl, rfl, by decide⟩

theorem outputsCapacityGo_append_inv {xs : List CellOutput} {o : CellOutput} {ot : Nat}
    (h : outputsCapacityGo 0 (xs ++ [o]) = some ot) :
    ∃ s, outputsCapacityGo 0 xs = some s ∧ s + o.capacity < U64MOD ∧
      ot = s + o.capacity := by
  rw [outputsCapacityGo_append_one] at h
  split at h
  · rename_i s hs
    split at h
    · rename_i hlt
      injection h with h'
      exact ⟨s, hs, hlt, h'.symm⟩
    · exact absurd h (by simp)
  · exact absurd h (by simp)

theorem tx_fee_replace_change {env : Env} {seed : Tx} {cds : List CellDep}
    {ins : List CellInput} {w : List (List Nat)} {o : CellOutput} {fee c : Nat}
    (hfee : tx_fee env (buildCandidate seed cds ins w (some o)) = .ok fee)
    (hle : o.capacity ≤ c) (hbound : c - o.capacity ≤ fee) :
    tx_fee env (buildCandidate seed cds ins w (some { o with capacity := c })) =
      .ok (fee - (c - o.capacity)) := by
  obtain ⟨it, ot, hin, hout, hotle, hfe⟩ := tx_fee_ok_inv hfee
  have hitlt : it < U64MOD := inputTotalGo_lt_u64 hin (by norm_num [U64MOD])
  simp only [buildCandidate] at hout
  obtain ⟨s, hs, hslt, hots⟩ := outputsCapacityGo_append_inv hout
  have hout' : outputsCapacityGo 0
      ((buildCandidate seed cds ins w (some { o with capacity := c })).outputs) =
      some (s + c) := by
    simp only [buildCandidate]
    rw [outputsCapacityGo_append_one, hs]
    show (if s + c < U64MOD then some (s + c) else none) = some (s + c)
    rw [if_pos (by omega)]
  have hin' : inputTotalGo env 0
      ((buildCandidate seed cds ins w (some { o with capacity := c })).inputs) =
      .ok it := hin
  have := tx_fee_eq_of hin' hout' (by omega)
  rw [this]
  congr 1
  omega

theorem tx_fee_append_change {env : Env} {seed : Tx} {cds : List CellDep}
    {ins : List CellInput} {w : List (List Nat)} {o : CellOutput} {fee : Nat}
    (hfee : tx_fee env (buildCandidate seed cds ins w none) = .ok fee)
    (hble : o.capacity ≤ fee) :
    tx_fee env (buildCandidate seed cds ins w (some o)) = .ok (fee - o.capacity) := by
  obtain ⟨it, ot, hin, hout, hotle, hfe⟩ := tx_fee_ok_inv hfee
  have hitlt : it < U64MOD := inputTotalGo_lt_u64 hin (by norm_num [U64MOD])
  simp only [buildCandidate, List.append_nil] at hout
  have hout' : outputsCapacityGo 0
      ((buildCandidate seed cds ins w (some o)).outputs) = some (ot + o.capacity) := by
    simp only [buildCandidate]
    rw [outputsCapacityGo_append_one, hout]
    show (if ot + o.capacity < U64MOD then some (ot + o.capacity) else none) =
      some (ot + o.capacity)
    rw [if_pos (by omega)]
  have hin' : inputTotalGo env 0
      ((buildCandidate seed cds ins w (some o)).inputs) = .ok it := hin
  have := tx_fee_eq_of hin' hout' (by omega)
  rw [this]
  congr 1
  omega

theorem step_after_grow (env : Env) (bal : CapacityBalancer)
    (lockScripts : List (Script × List Nat)) (seed : Tx) (bco : CellOutput)
    (bOcc : Nat) (S : LState) (lock : Script) (ph : List Nat) (hp : Bool)
    (output : CellOutput) (fee : Nat)
    (hsize : ∀ cds ins w o c,
      env.serializedSizeInBlock (buildCandidate seed cds ins w (some { o with capacity := c })) =
      env.serializedSizeInBlock (buildCandidate seed cds ins w (some o)))
    (hidx : lockScripts.get? S.idx = some (lock, ph))
    (hhp : hasProviderOf env lock (seed.inputs ++ S.inputs) = some hp)
    (hchg : S.changeOutput = some output)
    (hfee : tx_fee env (candidateOf seed S) = .ok fee)
    (hgt : minFeeOf env bal seed S < fee) :
    step env bal lockScripts seed bco bOcc { S with changeOutput := some { output with capacity := output.capacity + (fee - minFeeOf env bal seed S) }, witnesses := padWitnesses seed S.witnesses S.inputs.length } =
      .ret (.ok (buildCandidate seed S.cellDeps S.inputs (padWitnesses seed S.witnesses S.inputs.length) (some { output with capacity := output.capacity + (fee - minFeeOf env bal seed S) }))) := by
  have hidx' : lockScripts.get? (LState.idx { S with changeOutput := some { output with capacity := output.capacity + (fee - minFeeOf env bal seed S) }, witnesses := padWitnesses seed S.witnesses S.inputs.length }) = some (lock, ph) := hidx
  have hhp' : hasProviderOf env lock (seed.inputs ++ (LState.inputs { S with changeOutput := some { output with capacity := output.capacity + (fee - minFeeOf env bal seed S) }, witnesses := padWitnesses seed S.witnesses S.inputs.length })) = some hp := hhp
  have hcand' : candidateOf seed { S with changeOutput := some { output with capacity := output.capacity + (fee - minFeeOf env bal seed S) }, witnesses := padWitnesses seed S.witnesses S.inputs.length } = buildCandidate seed S.cellDeps S.inputs (padWitnesses seed S.witnesses S.inputs.length) (some { output with capacity := output.capacity + (fee - minFeeOf env bal seed S) }) := by
    simp only [candidateOf]
    rw [padWitnesses_stable]
  have hfee0 : tx_fee env (buildCandidate seed S.cellDeps S.inputs (padWitnesses seed S.witnesses S.inputs.length) (some output)) = .ok fee := by
    rw [candidateOf, hchg] at hfee
    exact hfee
  have hmfeq : minFeeOf env bal seed { S with changeOutput := some { output with capacity := output.capacity + (fee - minFeeOf env bal seed S) }, witnesses := padWitnesses seed S.witnesses S.inputs.length } = minFeeOf env bal seed S := by
    generalize hmf : minFeeOf env bal seed S = mf at hcand' ⊢
    simp only [minFeeOf]
    rw [hcand']
    rw [hsize S.cellDeps S.inputs (padWitnesses seed S.witnesses S.inputs.length) output (output.capacity + (fee - mf))]
    rw [← hmf]
    simp only [minFeeOf, candidateOf]
    rw [hchg]
  have hfee' : tx_fee env (candidateOf seed { S with changeOutput := some { output with capacity := output.capacity + (fee - minFeeOf env bal seed S) }, witnesses := padWitnesses seed S.witnesses S.inputs.length }) = .ok (minFeeOf env bal seed S) := by
    rw [hcand']
    have h2 := tx_fee_replace_change (o := output) (c := output.capacity + (fee - minFeeOf env bal seed S)) hfee0 (by omega) (by omega)
    rw [h2]
    congr 1
    omega
  rw [step_eq_of hidx' hhp', hmfeq]
  simp only [decision, hfee', beq_self_eq_true, if_true]
  rw [hcand']

theorem decision_ret_ne_oof {env : Env} {bal : CapacityBalancer} {len : Nat}
    {bco : CellOutput} {bOcc : Nat} {lock : Script} {S : LState} {cand : Tx}
    {minFee : Nat} {r : BalanceRes}
    (h : decision env bal len bco bOcc lock S cand minFee = .ret r) :
    r ≠ .outOfFuel := by
  unfold decision at h
  repeat' split at h
  all_goals first
    | (injection h with h'; subst h'; simp)
    | exact absurd h (by simp)

theorem step_ret_ne_oof {env : Env} {bal : CapacityBalancer}
    {lockScripts : List (Script × List Nat)} {seed : Tx} {bco : CellOutput}
    {bOcc : Nat} {S : LState} {r : BalanceRes}
    (h : step env bal lockScripts seed bco bOcc S = .ret r) : r ≠ .outOfFuel := by
  simp only [step] at h
  split at h
  · injection h with h'
    subst h'
    simp
  · split at h
    · injection h with h'
      subst h'
      simp
    · split at h
      · rename_i scrut rr heq
        injection h with h'
        subst h'
        exact decision_ret_ne_oof heq
      · exact absurd h (by simp)
      · split at h
        · rcases stepCollect_ret_inv h with ⟨msg, hm⟩ | ⟨id, hm⟩ <;> simp [hm]
        · exact absurd h (by simp)

theorem stepCollect_classify (env : Env) (len : Nat) (seed : Tx) (lock : Script)
    (ph : List Nat) (hp : Bool) (wits : List (List Nat)) (chg : Option CellOutput)
    (nm : Nat) (S : LState) :
    (∃ r, stepCollect env len seed lock ph hp wits chg nm S = .ret r) ∨
    (∃ S', stepCollect env len seed lock ph hp wits chg nm S = .cont S' ∧
      phiDec S S') := by
  simp only [stepCollect]
  split
  · rename_i hempty
    split
    · exact Or.inl ⟨_, rfl⟩
    · refine Or.inr ⟨_, rfl, Or.inl ⟨rfl, ?_⟩⟩
      exact collect_empty_state (List.isEmpty_iff.mp hempty)
  · rename_i hnotempty
    split
    · exact Or.inl ⟨_, rfl⟩
    · refine Or.inr ⟨_, rfl, Or.inr ⟨rfl, ?_⟩⟩
      refine collect_nonempty_state (fun hnil => hnotempty ?_)
      rw [hnil]
      rfl

theorem step_with_change_classify (env : Env) (bal : CapacityBalancer)
    (lockScripts : List (Script × List Nat)) (seed : Tx) (bco : CellOutput)
    (bOcc : Nat) (S : LState) (lock : Script) (ph : List Nat) (hp : Bool)
    (output : CellOutput) (fee : Nat)
    (hsize : ∀ cds ins w o c,
      env.serializedSizeInBlock (buildCandidate seed cds ins w (some { o with capacity := c })) =
      env.serializedSizeInBlock (buildCandidate seed cds ins w (some o)))
    (hidx : lockScripts.get? S.idx = some (lock, ph))
    (hhp : hasProviderOf env lock (seed.inputs ++ S.inputs) = some hp)
    (hchg : S.changeOutput = some output)
    (hfee : tx_fee env (candidateOf seed S) = .ok fee) :
    (∃ r, step env bal lockScripts seed bco bOcc S = .ret r) ∨
    (∃ S', step env bal lockScripts seed bco bOcc S = .cont S' ∧ samePhi S S' ∧
      ∃ r, step env bal lockScripts seed bco bOcc S' = .ret r) ∨
    (∃ S', step env bal lockScripts seed bco bOcc S = .cont S' ∧ phiDec S S') := by
  rcases Nat.lt_trichotomy fee (minFeeOf env bal seed S) with hlt | heq | hgt
  · have hne : (fee == minFeeOf env bal seed S) = false := by
      simp only [beq_eq_false_iff_ne, ne_eq]
      omega
    rw [step_eq_of hidx hhp]
    simp only [decision, hfee, hne, Bool.false_eq_true, if_false]
    rw [if_neg (by omega : ¬ minFeeOf env bal seed S < fee)]
    simp only []
    rw [if_pos (by norm_num : (0:Nat) < 1)]
    rcases stepCollect_classify env lockScripts.length seed lock ph hp
        (padWitnesses seed S.witnesses S.inputs.length) S.changeOutput 1 S with
      ⟨r, hr⟩ | ⟨S', h1, h2⟩
    · exact Or.inl ⟨r, hr⟩
    · exact Or.inr (Or.inr ⟨S', h1, h2⟩)
  · have hbeq : (fee == minFeeOf env bal seed S) = true := by simp [heq]
    rw [step_eq_of hidx hhp]
    simp only [decision, hfee, hbeq, if_true]
    exact Or.inl ⟨_, rfl⟩
  · have hne : (fee == minFeeOf env bal seed S) = false := by
      simp only [beq_eq_false_iff_ne, ne_eq]
      omega
    by_cases hov : output.capacity + (fee - minFeeOf env bal seed S) < U64MOD
    · refine Or.inr (Or.inl ⟨{ S with changeOutput := some { output with capacity := output.capacity + (fee - minFeeOf env bal seed S) }, witnesses := padWitnesses seed S.witnesses S.inputs.length }, ?_, ⟨rfl, rfl⟩, ?_⟩)
      · rw [step_eq_of hidx hhp]
        simp only [decision, hfee, hne, hchg, Bool.false_eq_true, if_false]
        rw [if_pos hgt, if_pos hov]
        simp only []
        rw [if_neg (by omega : ¬ (0:Nat) < 0)]
      · exact ⟨_, step_after_grow env bal lockScripts seed bco bOcc S lock ph hp
          output fee hsize hidx hhp hchg hfee hgt⟩
    · rw [step_eq_of hidx hhp]
      simp only [decision, hfee, hne, hchg, Bool.false_eq_true, if_false]
      rw [if_pos hgt, if_neg hov]
      exact Or.inl ⟨_, rfl⟩

theorem step_classify (env : Env) (bal : CapacityBalancer)
    (lockScripts : List (Script × List Nat)) (seed : Tx) (bco : CellOutput)
    (bOcc : Nat) (S : LState)
    (hsize : ∀ cds ins w o c,
      env.serializedSizeInBlock (buildCandidate seed cds ins w (some { o with capacity := c })) =
      env.serializedSizeInBlock (buildCandidate seed cds ins w (some o))) :
    (∃ r, step env bal lockScripts seed bco bOcc S = .ret r) ∨
    (∃ S', step env bal lockScripts seed bco bOcc S = .cont S' ∧ phiDec S S') ∨
    (∃ S', step env bal lockScripts seed bco bOcc S = .cont S' ∧ samePhi S S' ∧
      ∃ r, step env bal lockScripts seed bco bOcc S' = .ret r) ∨
    (∃ S' S'', step env bal lockScripts seed bco bOcc S = .cont S' ∧ samePhi S S' ∧
      step env bal lockScripts seed bco bOcc S' = .cont S'' ∧ samePhi S' S'' ∧
      ∃ r, step env bal lockScripts seed bco bOcc S'' = .ret r) ∨
    (∃ S' S'', step env bal lockScripts seed bco bOcc S = .cont S' ∧ samePhi S S' ∧
      step env bal lockScripts seed bco bOcc S' = .cont S'' ∧ phiDec S' S'') := by
  cases hidx : lockScripts.get? S.idx with
  | none => exact Or.inl ⟨.panic, by simp only [step, hidx]⟩
  | some pair =>
    obtain ⟨lock, ph⟩ := pair
    cases hhp : hasProviderOf env lock (seed.inputs ++ S.inputs) with
    | none => exact Or.inl ⟨.fail .txDep, by simp only [step, hidx, hhp]⟩
    | some hp =>
      cases hfee : tx_fee env (candidateOf seed S) with
      | panic =>
        refine Or.inl ⟨.panic, ?_⟩
        rw [step_eq_of hidx hhp]
        simp only [decision, hfee]
      | fail e =>
        cases e with
        | capacityOverflow d =>
          obtain ⟨it, ot, hin, hout, hlt, hd⟩ := tx_fee_overflow_inv hfee
          rw [step_eq_of hidx hhp]
          simp only [decision, hfee]
          rw [if_pos (by omega : 0 < d + minFeeOf env bal seed S)]
          rcases stepCollect_classify env lockScripts.length seed lock ph hp
              (padWitnesses seed S.witnesses S.inputs.length) S.changeOutput
              (d + minFeeOf env bal seed S) S with ⟨r, hr⟩ | ⟨S', h1, h2⟩
          · exact Or.inl ⟨r, hr⟩
          · exact Or.inr (Or.inl ⟨S', h1, h2⟩)
        | txDep =>
          have h : step env bal lockScripts seed bco bOcc S =
              .ret (.fail (.txFee .txDep)) := by
            rw [step_eq_of hidx hhp]
            simp only [decision, hfee]
          exact Or.inl ⟨_, h⟩
        | headerDep m =>
          have h : step env bal lockScripts seed bco bOcc S =
              .ret (.fail (.txFee (.headerDep m))) := by
            rw [step_eq_of hidx hhp]
            simp only [decision, hfee]
          exact Or.inl ⟨_, h⟩
        | capacityError =>
          have h : step env bal lockScripts seed bco bOcc S =
              .ret (.fail (.txFee .capacityError)) := by
            rw [step_eq_of hidx hhp]
            simp only [decision, hfee]
          exact Or.inl ⟨_, h⟩
      | ok fee =>
        cases hchg : S.changeOutput with
        | some output =>
          rcases step_with_change_classify env bal lockScripts seed bco bOcc S lock ph hp
              output fee hsize hidx hhp hchg hfee with h | ⟨S', h1, h2, h3⟩ | ⟨S', h1, h2⟩
          · exact Or.inl h
          · exact Or.inr (Or.inr (Or.inl ⟨S', h1, h2, h3⟩))
          · exact Or.inr (Or.inl ⟨S', h1, h2⟩)
        | none =>
          rcases Nat.lt_trichotomy fee (minFeeOf env bal seed S) with hlt | heq | hgt
          · have hne : (fee == minFeeOf env bal seed S) = false := by
              simp only [beq_eq_false_iff_ne, ne_eq]
              omega
            rw [step_eq_of hidx hhp]
            simp only [decision, hfee, hne, Bool.false_eq_true, if_false]
            rw [if_neg (by omega : ¬ minFeeOf env bal seed S < fee)]
            simp only []
            rw [if_pos (by norm_num : (0:Nat) < 1)]
            rcases stepCollect_classify env lockScripts.length seed lock ph hp
                (padWitnesses seed S.witnesses S.inputs.length) S.changeOutput 1 S with
              ⟨r, hr⟩ | ⟨S', h1, h2⟩
            · exact Or.inl ⟨r, hr⟩
            · exact Or.inr (Or.inl ⟨S', h1, h2⟩)
          · have hbeq : (fee == minFeeOf env bal seed S) = true := by simp [heq]
            have h : step env bal lockScripts seed bco bOcc S =
                .ret (.ok (candidateOf seed S)) := by
              rw [step_eq_of hidx hhp]
              simp only [decision, hfee, hbeq, if_true]
            exact Or.inl ⟨_, h⟩
          · have hne : (fee == minFeeOf env bal seed S) = false := by
              simp only [beq_eq_false_iff_ne, ne_eq]
              omega
            by_cases hbig : bOcc + extraFeeOf env bal bco ≤ fee - minFeeOf env bal seed S
            · have hstep1 : step env bal lockScripts seed bco bOcc S = .cont { S with changeOutput := some { bco with capacity := (fee - minFeeOf env bal seed S) - extraFeeOf env bal bco }, witnesses := padWitnesses seed S.witnesses S.inputs.length } := by
                rw [step_eq_of hidx hhp]
                simp only [decision, hfee, hne, hchg, Bool.false_eq_true, if_false]
                rw [if_pos hgt, if_pos hbig]
                simp only []
                rw [if_neg (by omega : ¬ (0:Nat) < 0)]
              have hcand1 : candidateOf seed { S with changeOutput := some { bco with capacity := (fee - minFeeOf env bal seed S) - extraFeeOf env bal bco }, witnesses := padWitnesses seed S.witnesses S.inputs.length } = buildCandidate seed S.cellDeps S.inputs (padWitnesses seed S.witnesses S.inputs.length) (some { bco with capacity := (fee - minFeeOf env bal seed S) - extraFeeOf env bal bco }) := by
                simp only [candidateOf]
                rw [padWitnesses_stable]
              have hfee0 : tx_fee env (buildCandidate seed S.cellDeps S.inputs (padWitnesses seed S.witnesses S.inputs.length) none) = .ok fee := by
                rw [candidateOf, hchg] at hfee
                exact hfee
              have hfee1 : tx_fee env (candidateOf seed { S with changeOutput := some { bco with capacity := (fee - minFeeOf env bal seed S) - extraFeeOf env bal bco }, witnesses := padWitnesses seed S.witnesses S.inputs.length }) = .ok (fee - ((fee - minFeeOf env bal seed S) - extraFeeOf env bal bco)) := by
                rw [hcand1]
                refine tx_fee_append_change hfee0 ?_
                show (fee - minFeeOf env bal seed S) - extraFeeOf env bal bco ≤ fee
                omega
              rcases step_with_change_classify env bal lockScripts seed bco bOcc
                  { S with changeOutput := some { bco with capacity := (fee - minFeeOf env bal seed S) - extraFeeOf env bal bco }, witnesses := padWitnesses seed S.witnesses S.inputs.length }
                  lock ph hp
                  { bco with capacity := (fee - minFeeOf env bal seed S) - extraFeeOf env bal bco }
                  (fee - ((fee - minFeeOf env bal seed S) - extraFeeOf env bal bco))
                  hsize hidx hhp rfl hfee1 with h | ⟨S'', h1, h2, h3⟩ | ⟨S'', h1, h2⟩
              · exact Or.inr (Or.inr (Or.inl ⟨_, hstep1, ⟨rfl, rfl⟩, h⟩))
              · exact Or.inr (Or.inr (Or.inr (Or.inl ⟨_, S'', hstep1, ⟨rfl, rfl⟩, h1, h2, h3⟩)))
              · exact Or.inr (Or.inr (Or.inr (Or.inr ⟨_, S'', hstep1, ⟨rfl, rfl⟩, h1, h2⟩)))
            · by_cases hpeek :
                  (((collect_live_cells (baseQueryOf lock) false S.collector).1).isEmpty) = true
              · cases hforce : bal.forceSmallChangeAsFee with
                | some capLimit =>
                  by_cases hcaplt : capLimit < fee
                  · have h : step env bal lockScripts seed bco bOcc S =
                        .ret (.fail (.forceSmallChangeAsFeeFailed fee)) := by
                      rw [step_eq_of hidx hhp]
                      simp only [decision, hfee, hne, hchg, Bool.false_eq_true, if_false]
                      rw [if_pos hgt, if_neg hbig]
                      simp only [hpeek, if_true, hforce]
                      rw [if_pos hcaplt]
                    exact Or.inl ⟨_, h⟩
                  · have h : step env bal lockScripts seed bco bOcc S =
                        .ret (.ok (candidateOf seed S)) := by
                      rw [step_eq_of hidx hhp]
                      simp only [decision, hfee, hne, hchg, Bool.false_eq_true, if_false]
                      rw [if_pos hgt, if_neg hbig]
                      simp only [hpeek, if_true, hforce]
                      rw [if_neg hcaplt]
                    exact Or.inl ⟨_, h⟩
                | none =>
                  by_cases hlast : (S.idx + 1 == lockScripts.length) = true
                  · have h : step env bal lockScripts seed bco bOcc S =
                        .ret (.fail (.capacityNotEnough
                          ("can not create change cell, left capacity=" ++
                            toString (fee - minFeeOf env bal seed S)))) := by
                      rw [step_eq_of hidx hhp]
                      simp only [decision, hfee, hne, hchg, Bool.false_eq_true, if_false]
                      rw [if_pos hgt, if_neg hbig]
                      simp only [hpeek, if_true, hforce, hlast, if_true]
                    exact Or.inl ⟨_, h⟩
                  · have hlast' : (S.idx + 1 == lockScripts.length) = false := by
                      simpa using hlast
                    refine Or.inr (Or.inl ⟨{ S with idx := S.idx + 1, witnesses := padWitnesses seed S.witnesses S.inputs.length }, ?_, Or.inl ⟨rfl, rfl⟩⟩)
                    rw [step_eq_of hidx hhp]
                    simp only [decision, hfee, hne, hchg, Bool.false_eq_true, if_false]
                    rw [if_pos hgt, if_neg hbig]
                    simp only [hpeek, if_true, hforce, hlast', Bool.false_eq_true, if_false]
              · have hpeek' : (((collect_live_cells (baseQueryOf lock) false S.collector).1).isEmpty) = false := by
                  simpa using hpeek
                rw [step_eq_of hidx hhp]
                simp only [decision, hfee, hne, hchg, Bool.false_eq_true, if_false]
                rw [if_pos hgt, if_neg hbig]
                simp only [hpeek', Bool.false_eq_true, if_false]
                rw [if_pos (by norm_num : (0:Nat) < 1)]
                rcases stepCollect_classify env lockScripts.length seed lock ph hp
                    (padWitnesses seed S.witnesses S.inputs.length)
                    (some { bco with capacity := bOcc }) 1 S with ⟨r, hr⟩ | ⟨S', h1, h2⟩
                · exact Or.inl ⟨r, hr⟩
                · exact Or.inr (Or.inl ⟨S', h1, h2⟩)

theorem balPhi_eq_of_samePhi {n : Nat} {S S' : LState} (h : samePhi S S') :
    balPhi n S' = balPhi n S := by
  obtain ⟨h1, h2⟩ := h
  unfold balPhi
  rw [h1, h2]

theorem balPhi_lt_of_phiDec {len : Nat} {S S' : LState} (hidx : S.idx < len)
    (h : phiDec S S') : balPhi len S' < balPhi len S := by
  unfold balPhi
  rcases h with ⟨h1, h2⟩ | ⟨h1, h2⟩
  · rw [h1, h2]
    have hlt : len - (S.idx + 1) < len - S.idx := by omega
    have hpos : 0 < S.collector.length + 1 := by omega
    have := mul_lt_mul_of_pos_right hlt hpos
    omega
  · rw [h1]
    have h3 : S'.collector.length + 1 ≤ S.collector.length + 1 := by omega
    have := Nat.mul_le_mul (Nat.le_refl (len - S.idx)) h3
    omega

theorem step_cont_idx_lt {env : Env} {bal : CapacityBalancer}
    {lockScripts : List (Script × List Nat)} {seed : Tx} {bco : CellOutput}
    {bOcc : Nat} {S S' : LState}
    (h : step env bal lockScripts seed bco bOcc S = .cont S') :
    S.idx < lockScripts.length := by
  simp only [step] at h
  split at h
  · exact absurd h (by simp)
  · rename_i pair lock ph hidx
    obtain ⟨hlt, _⟩ := List.get?_eq_some.mp hidx
    exact hlt

theorem balanceLoop_mono (env : Env) (bal : CapacityBalancer)
    (lockScripts : List (Script × List Nat)) (seed : Tx) (bco : CellOutput)
    (bOcc : Nat) :
    ∀ (f f' : Nat) (S : LState), f ≤ f' →
    balanceLoop env bal lockScripts seed bco bOcc f S ≠ .outOfFuel →
    balanceLoop env bal lockScripts seed bco bOcc f' S ≠ .outOfFuel := by
  intro f
  induction f with
  | zero =>
    intro f' S _ h
    exact absurd rfl h
  | succ f ihf =>
    intro f' S hle h
    cases f' with
    | zero => omega
    | succ f2 =>
      simp only [balanceLoop] at h ⊢
      cases hstep : step env bal lockScripts seed bco bOcc S with
      | ret r =>
        simp only [hstep] at h ⊢
        exact h
      | cont S2 =>
        simp only [hstep] at h ⊢
        exact ihf f2 S2 (by omega) h

theorem balanceLoop_fueled (env : Env) (bal : CapacityBalancer)
    (lockScripts : List (Script × List Nat)) (seed : Tx) (bco : CellOutput)
    (bOcc : Nat)
    (hsize : ∀ cds ins w o c,
      env.serializedSizeInBlock (buildCandidate seed cds ins w (some { o with capacity := c })) =
      env.serializedSizeInBlock (buildCandidate seed cds ins w (some o))) :
    ∀ (n : Nat) (S : LState), balPhi lockScripts.length S < n →
      balanceLoop env bal lockScripts seed bco bOcc (3 * n) S ≠ .outOfFuel := by
  intro n
  induction n using Nat.strongRecOn with
  | ind n ih =>
    intro S hphi
    have hn1 : 1 ≤ n := by omega
    rcases step_classify env bal lockScripts seed bco bOcc S hsize with
      ⟨r, hr⟩ | ⟨S', h1, h2⟩ | ⟨S', h1, h2, r, hr⟩ |
      ⟨S', S'', h1, h2, h3, h4, r, hr⟩ | ⟨S', S'', h1, h2, h3, h4⟩
    · have e : 3 * n = (3 * n - 1) + 1 := by omega
      rw [e]
      simp only [balanceLoop, hr]
      exact step_ret_ne_oof hr
    · have hlt : S.idx < lockScripts.length := step_cont_idx_lt h1
      have hdec := balPhi_lt_of_phiDec hlt h2
      have e : 3 * n = (3 * (n - 1) + 1 + 1) + 1 := by omega
      rw [e]
      simp only [balanceLoop, h1]
      exact balanceLoop_mono env bal lockScripts seed bco bOcc (3 * (n - 1))
        (3 * (n - 1) + 1 + 1) S' (by omega) (ih (n - 1) (by omega) S' (by omega))
    · have e : 3 * n = ((3 * n - 2) + 1) + 1 := by omega
      rw [e]
      simp only [balanceLoop, h1, hr]
      exact step_ret_ne_oof hr
    · have e : 3 * n = (((3 * n - 3) + 1) + 1) + 1 := by omega
      rw [e]
      simp only [balanceLoop, h1, h3, hr]
      exact step_ret_ne_oof hr
    · have hlt' : S'.idx < lockScripts.length := step_cont_idx_lt h3
      have hdec := balPhi_lt_of_phiDec hlt' h4
      have heq := balPhi_eq_of_samePhi (n := lockScripts.length) h2
      have e : 3 * n = ((3 * (n - 1) + 1) + 1) + 1 := by omega
      rw [e]
      simp only [balanceLoop, h1, h3]
      exact balanceLoop_mono env bal lockScripts seed bco bOcc (3 * (n - 1))
        (3 * (n - 1) + 1) S'' (by omega) (ih (n - 1) (by omega) S'' (by omega))

/-- C6 (amended): with the finite-list collector (whose reserving calls never
return a previously reserved cell, by construction) and a serialized-size
function unaffected by the change output's capacity field,
`balance_tx_capacity` terminates: the computed fuel bound is never exhausted.
Every iteration either advances the provider index, strictly shrinks the
collector while adding inputs, returns, or only adjusts the change output —
and in the last case the loop returns or makes real progress within two
further iterations. -/
theorem balance_tx_capacity_terminates (env : Env) (bal : CapacityBalancer)
    (seed : Tx) (col : List LiveCell)
    (hsize : ∀ cds ins w o c,
      env.serializedSizeInBlock (buildCandidate seed cds ins w (some { o with capacity := c })) =
      env.serializedSizeInBlock (buildCandidate seed cds ins w (some o))) :
    balance_tx_capacity env bal seed col (balanceFuel bal col) ≠ .outOfFuel := by
  simp only [balance_tx_capacity, balanceFuel]
  split
  · simp
  · rename_i firstLock rest
    have e : 3 * ((dedupLockScripts bal.capacityProvider.lockScripts).length *
          (col.length + 1) + col.length + 1) + 3 =
        3 * ((dedupLockScripts bal.capacityProvider.lockScripts).length *
          (col.length + 1) + col.length + 2) := by
      omega
    rw [e]
    refine balanceLoop_fueled env bal (dedupLockScripts bal.capacityProvider.lockScripts)
      seed _ _ hsize
      ((dedupLockScripts bal.capacityProvider.lockScripts).length * (col.length + 1) +
        col.length + 2)
      { idx := 0, cellDeps := [], inputs := [], changeOutput := none,
        witnesses := [], collector := col } ?_
    unfold balPhi
    simp only [Nat.sub_zero]
    omega

/-- Witness for C6 (amended): the converging scenario's size function ignores
its argument, so the capacity-invariance hypothesis holds, and the run
finishes within the fuel bound. -/
theorem balance_tx_capacity_terminates_witness :
    (∀ cds ins w (o : CellOutput) c,
      env1.serializedSizeInBlock (buildCandidate seed1 cds ins w (some { o with capacity := c })) =
      env1.serializedSizeInBlock (buildCandidate seed1 cds ins w (some o))) ∧
    balance_tx_capacity env1 bal1 seed1 [liveA1] (balanceFuel bal1 [liveA1]) ≠
      .outOfFuel := by
  refine ⟨fun cds ins w o c => rfl, ?_⟩
  exact balance_tx_capacity_terminates env1 bal1 seed1 [liveA1]
    (fun cds ins w o c => rfl)
